import Mathlib

/-!
Verification of the elliptic-curve arithmetic engine of the ECC demo
repository (`src/utils/ecc.ts` plus the ElGamal orchestration in
`src/components/EncryptionDemo.tsx`).

The TypeScript source works on JavaScript bigints.  JavaScript `%` and `/`
on bigints truncate towards zero, so they are modelled by `Int.tmod` and
`Int.tdiv`.  A JavaScript `throw` is modelled by `Except.error` with an
error code naming the thrown error.  Loops are modelled by structural
recursion on an explicit fuel argument chosen large enough to cover every
iteration the source loop can perform (lemmas below show the fuel is never
exhausted on the executions the theorems talk about).
-/

/-- The runtime failures the engine can raise.
`noInverse` is `throw new Error('模逆元不存在')` in `modInverse`;
`embedFailed` is `throw new Error('无法嵌入消息 (Koblitz)')`;
`invalidPoint` is `throw new Error('无效点')` in `unembedMessageKoblitz`;
`jsTypeError` is the TypeError raised when `-S.y!` mixes `null`/Number
with a BigInt in `handleDecrypt`;
`jsRangeError` is the RangeError of a bigint division by zero. -/
inductive ECCError where
  | noInverse
  | embedFailed
  | invalidPoint
  | jsTypeError
  | jsRangeError
deriving DecidableEq, Repr

/-- `Point` from `src/utils/ecc.ts`: `{ x: bigint | null; y: bigint | null; isInfinity: boolean }`. -/
structure Point where
  x : Option Int
  y : Option Int
  isInfinity : Bool
deriving DecidableEq, Repr

/-- `CurveParams` from `src/utils/ecc.ts`. -/
structure CurveParams where
  a : Int
  b : Int
  p : Int
  G : Point
  n : Int
deriving DecidableEq, Repr

/-- The canonical point at infinity `{ x: null, y: null, isInfinity: true }`. -/
def infPt : Point := ⟨none, none, true⟩

/-- An affine point `{ x, y, isInfinity: false }`. -/
def affPt (x y : Int) : Point := ⟨some x, some y, false⟩

/-- `TOY_CURVE` from `src/utils/ecc.ts`. -/
def TOY_CURVE : CurveParams := ⟨1, 6, 11, affPt 2 4, 13⟩

/-- `DEMO_CURVE` from `src/utils/ecc.ts`. -/
def DEMO_CURVE : CurveParams := ⟨2, 2, 1021, affPt 5 195, 1039⟩

/-- `mod(n, p) = ((n % p) + p) % p` with JavaScript `%` (truncated remainder). -/
def mod (n p : Int) : Int := ((n.tmod p) + p).tmod p

/-- The `while (r !== 0n)` loop of `modInverse` (extended Euclidean algorithm).
State `(old_r, r, old_s, s, old_t, t)`; each iteration computes
`quotient = old_r / r` (truncated) and shifts the rows.  Returns the final
`(old_r, old_s, old_t)`. -/
def egcdGo : Nat → Int → Int → Int → Int → Int → Int → Int × Int × Int
  | 0, old_r, _, old_s, _, old_t, _ => (old_r, old_s, old_t)
  | fuel + 1, old_r, r, old_s, s, old_t, t =>
    if r = 0 then (old_r, old_s, old_t)
    else
      let quotient := old_r.tdiv r
      egcdGo fuel r (old_r - quotient * r) s (old_s - quotient * s) t (old_t - quotient * t)

/-- `modInverse(a, m)` from `src/utils/ecc.ts`: extended Euclidean algorithm,
throws `'模逆元不存在'` when the final `old_r` is not `1`, else returns
`mod(old_s, m)`.  The loop performs at most `|m| + 1` iterations because the
absolute value of `r` strictly decreases, so fuel `m.natAbs + 1` is never
exhausted. -/
def modInverse (a m : Int) : Except ECCError Int :=
  let res := egcdGo (m.natAbs + 1) a m 1 0 0 1
  if res.1 ≠ 1 then .error .noInverse else .ok (mod res.2.1 m)

/-- The `while (e > 0n)` loop of `modPow`: square-and-multiply with
`res`, `base` and `e` as in the source (`e /= 2n` truncates). -/
def modPowGo (m : Int) : Nat → Int → Int → Int → Int
  | 0, res, _, _ => res
  | fuel + 1, res, base, e =>
    if 0 < e then
      modPowGo m fuel (if e.tmod 2 = 1 then mod (res * base) m else res)
        (mod (base * base) m) (e.tdiv 2)
    else res

/-- `modPow(base, exp, m)` from `src/utils/ecc.ts`.  The loop halves `e`
every iteration, so it runs at most `exp.natAbs + 1` times. -/
def modPow (base exp m : Int) : Int :=
  modPowGo m (exp.natAbs + 1) 1 (mod base m) exp

/-- The `for (let i = 1n; i < p; i++)` brute-force loop of `modSqrt`. -/
def sqrtGo (p a1 : Int) : Nat → Int → Option Int
  | 0, _ => none
  | fuel + 1, i =>
    if i < p then
      if mod (i * i) p = a1 then some i else sqrtGo p a1 fuel (i + 1)
    else none

/-- `modSqrt(a, p)` from `src/utils/ecc.ts`: reduce `a`, use the
`p ≡ 3 (mod 4)` closed form with a verification check, otherwise brute
force over `[1, p)`. -/
def modSqrt (a p : Int) : Option Int :=
  let a1 := mod a p
  if p.tmod 4 = 3 then
    let r := modPow a1 ((p + 1).tdiv 4) p
    if mod (r * r) p = a1 then some r else none
  else sqrtGo p a1 p.natAbs 1

/-- JavaScript truthiness of a `bigint | null` coordinate: `null` and `0n`
are falsy, everything else truthy.  This is the test `!P.x` performs. -/
def falsyCoord : Option Int → Bool
  | none => true
  | some v => v == 0

/-- `pointAdd(P, Q, curve)` from `src/utils/ecc.ts` (without the optional
trace callback; `pointAddT` below is the traced variant).  The branch
structure follows the source line by line; the final `match` arm for a
`null` coordinate is unreachable because the falsy-coordinate guard
already returned. -/
def pointAdd (P Q : Point) (c : CurveParams) : Except ECCError Point :=
  if P.isInfinity then .ok Q
  else if Q.isInfinity then .ok P
  else if falsyCoord P.x || falsyCoord P.y || falsyCoord Q.x || falsyCoord Q.y then .ok infPt
  else
    match P.x, P.y, Q.x, Q.y with
    | some px, some py, some qx, some qy =>
      if px = qx ∧ py ≠ qy then .ok infPt
      else if px = qx ∧ py = qy then
        if py = 0 then .ok infPt
        else
          let num := mod (3 * px * px + c.a) c.p
          match modInverse (2 * py) c.p with
          | .error e => .error e
          | .ok den =>
            let lam := mod (num * den) c.p
            let x3 := mod (lam * lam - px - qx) c.p
            let y3 := mod (lam * (px - x3) - py) c.p
            .ok (affPt x3 y3)
      else
        let num := mod (qy - py) c.p
        match modInverse (mod (qx - px) c.p) c.p with
        | .error e => .error e
        | .ok den =>
          let lam := mod (num * den) c.p
          let x3 := mod (lam * lam - px - qx) c.p
          let y3 := mod (lam * (px - x3) - py) c.p
          .ok (affPt x3 y3)
    | _, _, _, _ => .ok infPt

/-- One pass over the binary digits of the scalar, least significant bit
first, as the `for (let i = bits.length - 1; i >= 0; i--)` loop of
`pointMultiply` does: when the current bit is `1` add `N` into `R`, then
double `N` (the doubling happens on every iteration, including the last). -/
def pointMulGo (c : CurveParams) : Nat → Nat → Point → Point → Except ECCError Point
  | 0, _, R, _ => .ok R
  | fuel + 1, k, R, N => do
    let R2 ← if k % 2 = 1 then pointAdd R N c else .ok R
    let N2 ← pointAdd N N c
    if k / 2 = 0 then .ok R2 else pointMulGo c fuel (k / 2) R2 N2

/-- `pointMultiply(k, P, curve)` from `src/utils/ecc.ts` for a non-negative
scalar.  `k = 0` has binary string `"0"`: the loop body runs once, performs
no addition but still doubles `N` (which can throw), and returns the
identity.  For `k ≥ 1` the loop runs once per binary digit, which is at
most `k` iterations, so fuel `k` suffices. -/
def pointMultiply (k : Nat) (P : Point) (c : CurveParams) : Except ECCError Point :=
  if k = 0 then do
    let _ ← pointAdd P P c
    .ok infPt
  else pointMulGo c k k infPt P

/-- `isValidX(x, curve)` from `src/utils/ecc.ts`: `modSqrt` of
`x^3 + a*x + b mod p`; the returned record `{valid, y}` is `some y`
exactly when `valid`. -/
def isValidX (x : Int) (c : CurveParams) : Option Int :=
  modSqrt (mod (x ^ 3 + c.a * x + c.b) c.p) c.p

/-- The `for (let j = 0n; j < K; j++)` loop of `embedMessageKoblitz`. -/
def embedGo (message K : Int) (c : CurveParams) : Nat → Int → Except ECCError Point
  | 0, _ => .error .embedFailed
  | fuel + 1, j =>
    if j < K then
      match isValidX (message * K + j) c with
      | some y => .ok (affPt (message * K + j) y)
      | none => embedGo message K c fuel (j + 1)
    else .error .embedFailed

/-- `embedMessageKoblitz(message, curve, K)` from `src/utils/ecc.ts`:
try `x = message*K + j` for `j = 0, 1, …` while `j < K`; throw
`'无法嵌入消息 (Koblitz)'` when the loop ends. -/
def embedMessageKoblitz (message : Int) (c : CurveParams) (K : Int) : Except ECCError Point :=
  embedGo message K c (K.natAbs + 1) 0

/-- `unembedMessageKoblitz(P, K)` from `src/utils/ecc.ts`: throw `'无效点'`
on the point at infinity or a `null` x-coordinate, else return `P.x / K`
(truncated bigint division; dividing by `0n` raises a RangeError). -/
def unembedMessageKoblitz (P : Point) (K : Int) : Except ECCError Int :=
  if P.isInfinity then .error .invalidPoint
  else
    match P.x with
    | none => .error .invalidPoint
    | some x => if K = 0 then .error .jsRangeError else .ok (x.tdiv K)

/-- The encryption step of `handleEncrypt` in
`src/components/EncryptionDemo.tsx`: `C1 = k*G`, `S = k*Q`, `C2 = Pm + S`. -/
def elgamalEncrypt (Pm Q : Point) (k : Nat) (c : CurveParams) :
    Except ECCError (Point × Point) := do
  let c1 ← pointMultiply k c.G c
  let S ← pointMultiply k Q c
  let c2 ← pointAdd Pm S c
  .ok (c1, c2)

/-- The decryption step of `handleDecrypt` in
`src/components/EncryptionDemo.tsx`: `S = d*C1`, then
`negS = { x: S.x, y: mod(-S.y!, curve.p), isInfinity: S.isInfinity }` and
`M = C2 + negS`.  When `S.y` is `null` the expression `-S.y!` evaluates
`-null`, a Number, and `mod` then mixes Number and BigInt: a TypeError. -/
def elgamalDecrypt (c1 c2 : Point) (d : Nat) (c : CurveParams) : Except ECCError Point := do
  let S ← pointMultiply d c1 c
  match S.y with
  | none => .error .jsTypeError
  | some sy =>
    let negS : Point := ⟨S.x, some (mod (-sy) c.p), S.isInfinity⟩
    pointAdd c2 negS c

deriving instance DecidableEq for Except

/-- A curve record used in several concrete evaluations: `y² = x³ + x + 1`
over `p = 5`, generator `(3, 1)`, group order `9`.  The code accepts any
`CurveParams`; this one satisfies every documented invariant (prime `p`,
generator on the curve). -/
def CURVE5 : CurveParams := ⟨1, 1, 5, affPt 3 1, 9⟩

/-- The affine point `(x, y)` is canonical (both coordinates in `[0, p)`)
and satisfies the curve equation `y² ≡ x³ + a·x + b (mod p)`. -/
def AffPt (c : CurveParams) (x y : Int) : Prop :=
  0 ≤ x ∧ x < c.p ∧ 0 ≤ y ∧ y < c.p ∧
    mod (y * y) c.p = mod (x * x * x + c.a * x + c.b) c.p

instance (c : CurveParams) (x y : Int) : Decidable (AffPt c x y) := by
  unfold AffPt; infer_instance

/-- A `Point` value is either the canonical point at infinity or a
canonical affine point on the curve. -/
def ValidPoint (c : CurveParams) (P : Point) : Prop :=
  P = infPt ∨ ∃ x y, P = affPt x y ∧ AffPt c x y

/-- Hypotheses on a curve record under which the engine's point algebra
realises the mathematical group law: an odd prime modulus, a nonzero
discriminant, and no affine point of the curve with a zero coordinate
(the source's falsy-coordinate guard `!P.x || !P.y || …` silently turns
such points into the point at infinity). -/
structure GoodCurve (c : CurveParams) : Prop where
  hp2 : 2 < c.p
  hprime : Nat.Prime c.p.toNat
  hdisc : mod (4 * c.a ^ 3 + 27 * c.b ^ 2) c.p ≠ 0
  hnz : ∀ x : Nat, x < c.p.toNat → ∀ y : Nat, y < c.p.toNat →
    mod ((y : Int) * (y : Int)) c.p =
      mod ((x : Int) * (x : Int) * (x : Int) + c.a * (x : Int) + c.b) c.p →
    0 < x ∧ 0 < y

/-- The short Weierstrass curve over `ZMod pn` with the same coefficients
as the curve record. -/
def toW (c : CurveParams) (pn : Nat) : WeierstrassCurve.Affine (ZMod pn) :=
  ⟨0, 0, 0, (c.a : ZMod pn), (c.b : ZMod pn)⟩

/-- Relates a code-level `Point` value to a nonsingular rational point of
the corresponding Weierstrass curve: the point at infinity to zero, and a
canonical affine point to the class of its coordinates. -/
inductive ReprPt (c : CurveParams) (pn : Nat) :
    Point → (toW c pn).Point → Prop where
  | inf : ReprPt c pn infPt 0
  | aff (x y : Int) (hx0 : 0 ≤ x) (hx1 : x < c.p) (hy0 : 0 ≤ y) (hy1 : y < c.p)
      (h : (toW c pn).Nonsingular (x : ZMod pn) (y : ZMod pn)) :
      ReprPt c pn (affPt x y) (.some h)

/-- The binary digits of a scalar as `k.toString(2)` renders them. -/
def natBits (k : Nat) : String := (Nat.toDigits 2 k).asString

/-- `pointAdd` with the optional trace callback supplied: the same
computation as `pointAdd`, additionally returning the list of strings the
source passes to `log`, in order.  A thrown error carries the trace
emitted before the throw. -/
def pointAddT (P Q : Point) (c : CurveParams) : Except ECCError Point × List String :=
  if P.isInfinity then (.ok Q, [])
  else if Q.isInfinity then (.ok P, [])
  else if falsyCoord P.x || falsyCoord P.y || falsyCoord Q.x || falsyCoord Q.y then (.ok infPt, [])
  else
    match P.x, P.y, Q.x, Q.y with
    | some px, some py, some qx, some qy =>
      if px = qx ∧ py ≠ qy then (.ok infPt, ["P + Q = 无穷远点 (垂直线)"])
      else if px = qx ∧ py = qy then
        if py = 0 then (.ok infPt, [])
        else
          let num := mod (3 * px * px + c.a) c.p
          match modInverse (2 * py) c.p with
          | .error e => (.error e, [])
          | .ok den =>
            let lam := mod (num * den) c.p
            let l1 := "倍点 P: λ = (3*" ++ toString px ++ "^2 + " ++ toString c.a ++
              ") / (2*" ++ toString py ++ ") = " ++ toString num ++ " * " ++ toString den ++
              " mod " ++ toString c.p ++ " = " ++ toString lam
            let x3 := mod (lam * lam - px - qx) c.p
            let y3 := mod (lam * (px - x3) - py) c.p
            (.ok (affPt x3 y3),
              [l1, "结果: (" ++ toString x3 ++ ", " ++ toString y3 ++ ")"])
      else
        let num := mod (qy - py) c.p
        match modInverse (mod (qx - px) c.p) c.p with
        | .error e => (.error e, [])
        | .ok den =>
          let lam := mod (num * den) c.p
          let l1 := "点加 P+Q: λ = (" ++ toString qy ++ " - " ++ toString py ++
            ") / (" ++ toString qx ++ " - " ++ toString px ++ ") = " ++ toString num ++
            " * " ++ toString den ++ " mod " ++ toString c.p ++ " = " ++ toString lam
          let x3 := mod (lam * lam - px - qx) c.p
          let y3 := mod (lam * (px - x3) - py) c.p
          (.ok (affPt x3 y3),
            [l1, "结果: (" ++ toString x3 ++ ", " ++ toString y3 ++ ")"])
    | _, _, _, _ => (.ok infPt, [])

/-- The scalar-multiplication loop with the trace callback supplied.
`pos` is `bits.length - 1 - i`, the weight of the bit being processed.
Note the source calls `pointAdd` *without* forwarding `log`, so the inner
additions contribute no trace lines. -/
def pointMulGoT (c : CurveParams) :
    Nat → Nat → Point → Point → Nat → List String → Except ECCError Point × List String
  | 0, _, R, _, _, logs => (.ok R, logs)
  | fuel + 1, k, R, N, pos, logs =>
    let st1 : Except ECCError Point × List String :=
      if k % 2 = 1 then
        (pointAdd R N c,
          logs ++ ["第 2^" ++ toString pos ++ " 位是 1。将当前点 N 加到结果中。"])
      else (.ok R, logs)
    match st1 with
    | (.error e, logs1) => (.error e, logs1)
    | (.ok R2, logs1) =>
      let logs2 := logs1 ++ ["为下一位对 N 进行倍点运算。"]
      match pointAdd N N c with
      | .error e => (.error e, logs2)
      | .ok N2 =>
        if k / 2 = 0 then (.ok R2, logs2)
        else pointMulGoT c fuel (k / 2) R2 N2 (pos + 1) logs2

/-- `pointMultiply` with the optional trace callback supplied. -/
def pointMultiplyT (k : Nat) (P : Point) (c : CurveParams) :
    Except ECCError Point × List String :=
  let logs0 := ["标量乘法: k=" ++ toString k ++ " (二进制: " ++ natBits k ++ ")"]
  if k = 0 then
    let logs1 := logs0 ++ ["为下一位对 N 进行倍点运算。"]
    match pointAdd P P c with
    | .error e => (.error e, logs1)
    | .ok _ => (.ok infPt, logs1)
  else pointMulGoT c k k infPt P 0 logs0

/-! ### Basic facts about `mod`, `tmod` and the extended Euclidean loop -/

theorem neg_lt_tmod (a : Int) {p : Int} (hp : 0 < p) : -p < a.tmod p := by
  rcases a with m | m
  · have h0 : 0 ≤ (Int.ofNat m).tmod p := Int.tmod_nonneg p (Int.ofNat_nonneg m)
    omega
  · rcases p with n | n
    · have e : (Int.negSucc m).tmod (Int.ofNat n) = -Int.ofNat ((m + 1) % n) := rfl
      rw [e, Int.ofNat_eq_natCast, Int.ofNat_eq_natCast]
      have hn : 0 < n := by
        rw [Int.ofNat_eq_natCast] at hp
        exact_mod_cast hp
      have hlt : (m + 1) % n < n := Nat.mod_lt _ hn
      omega
    · have := Int.negSucc_lt_zero n
      omega

theorem tmod_modEq (a p : Int) : a.tmod p ≡ a [ZMOD p] := by
  have h := Int.tdiv_add_tmod a p
  exact Int.modEq_iff_dvd.mpr ⟨a.tdiv p, by linarith⟩

theorem mod_modEq (n p : Int) : mod n p ≡ n [ZMOD p] := by
  have h1 : ((n.tmod p) + p).tmod p ≡ n.tmod p + p [ZMOD p] := tmod_modEq _ p
  have h2 : n.tmod p + p ≡ n.tmod p + 0 [ZMOD p] :=
    Int.ModEq.add_left _ (Int.modEq_iff_dvd.mpr ⟨-1, by ring⟩)
  have h3 : n.tmod p ≡ n [ZMOD p] := tmod_modEq n p
  have := h1.trans (h2.trans (by simpa using h3))
  simpa [mod] using this

theorem mod_bounds {p : Int} (hp : 0 < p) (n : Int) : 0 ≤ mod n p ∧ mod n p < p := by
  have h1 : -p < n.tmod p := neg_lt_tmod n hp
  have h3 : 0 ≤ n.tmod p + p := by omega
  have e : mod n p = (n.tmod p + p) % p := Int.tmod_eq_emod h3 (le_of_lt hp)
  rw [e]
  exact ⟨Int.emod_nonneg _ (by omega), Int.emod_lt_of_pos _ hp⟩

theorem mod_eq_emod {p : Int} (hp : 0 < p) (n : Int) : mod n p = n % p := by
  have hb := mod_bounds hp n
  have hm : mod n p % p = n % p := mod_modEq n p
  rwa [Int.emod_eq_of_lt hb.1 hb.2] at hm

theorem mod_congr {p : Int} (hp : 0 < p) {a b : Int} (h : a ≡ b [ZMOD p]) :
    mod a p = mod b p := by
  rw [mod_eq_emod hp, mod_eq_emod hp]
  exact h

theorem intCast_mod_zmod {p : Int} (hp : 0 < p) (n : Int) :
    ((mod n p : Int) : ZMod p.toNat) = (n : ZMod p.toNat) := by
  rw [ZMod.intCast_eq_intCast_iff]
  have hcast : ((p.toNat : Nat) : Int) = p := Int.toNat_of_nonneg (le_of_lt hp)
  rw [hcast]
  exact mod_modEq n p

theorem intCast_inj_range {p : Int} (hp : 0 < p) {x x' : Int}
    (h0 : 0 ≤ x) (h1 : x < p) (h0' : 0 ≤ x') (h1' : x' < p)
    (h : (x : ZMod p.toNat) = (x' : ZMod p.toNat)) : x = x' := by
  rw [ZMod.intCast_eq_intCast_iff] at h
  have hcast : ((p.toNat : Nat) : Int) = p := Int.toNat_of_nonneg (le_of_lt hp)
  rw [hcast] at h
  have hd := Int.ModEq.dvd h
  have := Int.eq_zero_of_abs_lt_dvd hd (by rw [abs_lt]; constructor <;> omega)
  omega

theorem mod_one_eq {m : Int} (hm : 1 < m) : mod 1 m = 1 := by
  have hb := mod_bounds (by omega : (0:Int) < m) 1
  have h : mod 1 m % m = 1 % m := mod_modEq 1 m
  rwa [Int.emod_eq_of_lt hb.1 hb.2, Int.emod_eq_of_lt (by omega) hm] at h

theorem egcdGo_bezout (a m : Int) (fuel : Nat) :
    ∀ old_r r old_s s old_t t,
    old_s * a + old_t * m = old_r → s * a + t * m = r →
    (egcdGo fuel old_r r old_s s old_t t).2.1 * a +
      (egcdGo fuel old_r r old_s s old_t t).2.2 * m =
      (egcdGo fuel old_r r old_s s old_t t).1 := by
  induction fuel with
  | zero => intro old_r r old_s s old_t t h1 h2; simpa [egcdGo] using h1
  | succ fuel ih =>
    intro old_r r old_s s old_t t h1 h2
    by_cases hr : r = 0
    · simpa [egcdGo, hr] using h1
    · simp only [egcdGo, if_neg hr]
      exact ih r (old_r - old_r.tdiv r * r) s (old_s - old_r.tdiv r * s) t
        (old_t - old_r.tdiv r * t) h2 (by linear_combination h1 - old_r.tdiv r * h2)

theorem gcd_step {old_r r : Int} (h0 : 0 ≤ old_r) (hr : 0 < r) :
    Int.gcd r (old_r.tmod r) = Int.gcd old_r r := by
  rw [Int.tmod_eq_emod h0 (le_of_lt hr)]
  obtain ⟨a, rfl⟩ := Int.eq_ofNat_of_zero_le h0
  obtain ⟨b, rfl⟩ := Int.eq_ofNat_of_zero_le (le_of_lt hr)
  have he : (a : Int) % (b : Int) = ((a % b : Nat) : Int) := by
    rw [Int.ofNat_emod]
  rw [he, Int.gcd_def, Int.gcd_def]
  simp only [Int.natAbs_ofNat]
  rw [Nat.gcd_comm b (a % b), ← Nat.gcd_rec b a, Nat.gcd_comm b a]

theorem egcdGo_gcd (a m : Int) (fuel : Nat) :
    ∀ old_r r old_s s old_t t, 0 ≤ old_r → 0 ≤ r → r.natAbs < fuel →
    Int.gcd old_r r = Int.gcd a m →
    (egcdGo fuel old_r r old_s s old_t t).1 = ((Int.gcd a m : Nat) : Int) := by
  induction fuel with
  | zero => intro _ _ _ _ _ _ _ _ h _; omega
  | succ fuel ih =>
    intro old_r r old_s s old_t t h0 h1 hf hg
    by_cases hr : r = 0
    · subst hr
      simp only [egcdGo, if_pos rfl]
      rw [← hg, Int.gcd_def]
      simp [Int.natAbs_of_nonneg h0]
    · simp only [egcdGo, if_neg hr]
      have hrpos : 0 < r := lt_of_le_of_ne h1 (Ne.symm hr)
      have hstep : old_r - old_r.tdiv r * r = old_r.tmod r := by
        have h := Int.tdiv_add_tmod old_r r
        linarith
      rw [hstep]
      have h2 := Int.tmod_lt_of_pos old_r hrpos
      have h3 := Int.tmod_nonneg r h0
      exact ih r (old_r.tmod r) _ _ _ _ h1 h3 (by omega)
        (by rw [gcd_step h0 hrpos]; exact hg)

theorem modInverse_ok_spec {a m x : Int} (hm : 0 < m) (h : modInverse a m = .ok x) :
    0 ≤ x ∧ x < m ∧ mod (a * x) m = mod 1 m := by
  unfold modInverse at h
  by_cases h1 : (egcdGo (m.natAbs + 1) a m 1 0 0 1).1 ≠ 1
  · simp [h1] at h
  · push_neg at h1
    rw [if_neg (by simp [h1])] at h
    have hx : mod (egcdGo (m.natAbs + 1) a m 1 0 0 1).2.1 m = x := by
      exact Except.ok.inj h
    have hbez := egcdGo_bezout a m (m.natAbs + 1) a m 1 0 0 1 (by ring) (by ring)
    rw [h1] at hbez
    refine ⟨?_, ?_, ?_⟩
    · have := mod_bounds hm ((egcdGo (m.natAbs + 1) a m 1 0 0 1).2.1)
      omega
    · have := mod_bounds hm ((egcdGo (m.natAbs + 1) a m 1 0 0 1).2.1)
      omega
    · have hxe : x ≡ (egcdGo (m.natAbs + 1) a m 1 0 0 1).2.1 [ZMOD m] := by
        rw [← hx]
        exact mod_modEq _ m
      have hme : a * x ≡ 1 [ZMOD m] := by
        calc a * x ≡ a * (egcdGo (m.natAbs + 1) a m 1 0 0 1).2.1 [ZMOD m] := hxe.mul_left a
          _ ≡ 1 [ZMOD m] := Int.modEq_iff_dvd.mpr
              ⟨(egcdGo (m.natAbs + 1) a m 1 0 0 1).2.2, by linear_combination -hbez⟩
      exact mod_congr hm hme

theorem modInverse_gcd_one {a m : Int} (ha : 0 ≤ a) (hm : 0 < m) (hg : Int.gcd a m = 1) :
    modInverse a m = .ok (mod (egcdGo (m.natAbs + 1) a m 1 0 0 1).2.1 m) := by
  have hval := egcdGo_gcd a m (m.natAbs + 1) a m 1 0 0 1 ha (le_of_lt hm) (by omega) rfl
  rw [hg] at hval
  unfold modInverse
  rw [if_neg (by rw [hval]; norm_num)]

theorem modInverse_gcd_ne {a m : Int} (ha : 0 ≤ a) (hm : 0 < m) (hg : Int.gcd a m ≠ 1) :
    modInverse a m = .error .noInverse := by
  have hval := egcdGo_gcd a m (m.natAbs + 1) a m 1 0 0 1 ha (le_of_lt hm) (by omega) rfl
  unfold modInverse
  rw [if_pos]
  rw [hval]
  exact_mod_cast hg

/-- C6 (amended to non-negative `a`): for `0 ≤ a` and `m > 1`, `modInverse`
returns the unique inverse in `[0, m)` when `gcd(a, m) = 1` and fails with
the no-inverse error exactly when `gcd(a, m) ≠ 1`; concretely
`modInverse 2 11 = 6` and `modInverse 0 11` fails. -/
theorem modInverse_spec_nonneg (a m : Int) (ha : 0 ≤ a) (hm : 1 < m) :
    (Int.gcd a m = 1 →
      ∃ x, modInverse a m = .ok x ∧ 0 ≤ x ∧ x < m ∧ mod (a * x) m = 1 ∧
        ∀ y, 0 ≤ y → y < m → mod (a * y) m = 1 → y = x) ∧
    (Int.gcd a m ≠ 1 → modInverse a m = .error .noInverse) ∧
    modInverse 2 11 = .ok 6 ∧ modInverse 0 11 = .error .noInverse := by
  have hm0 : (0:Int) < m := by omega
  refine ⟨?_, fun hg => modInverse_gcd_ne ha hm0 hg, by decide, by decide⟩
  intro hg
  obtain ⟨x, hx⟩ : ∃ x, modInverse a m = .ok x := ⟨_, modInverse_gcd_one ha hm0 hg⟩
  obtain ⟨h0, h1, h2⟩ := modInverse_ok_spec hm0 hx
  rw [mod_one_eq hm] at h2
  refine ⟨x, hx, h0, h1, h2, ?_⟩
  intro y hy0 hy1 hy2
  have c1 : (a : ZMod m.toNat) * (x : ZMod m.toNat) = 1 := by
    have := congrArg (fun t : Int => (t : ZMod m.toNat)) h2
    simp only [intCast_mod_zmod hm0, Int.cast_mul, Int.cast_one] at this
    exact this
  have c2 : (a : ZMod m.toNat) * (y : ZMod m.toNat) = 1 := by
    have := congrArg (fun t : Int => (t : ZMod m.toNat)) hy2
    simp only [intCast_mod_zmod hm0, Int.cast_mul, Int.cast_one] at this
    exact this
  have hcc : (y : ZMod m.toNat) = (x : ZMod m.toNat) := by
    calc (y : ZMod m.toNat) = ((a : ZMod m.toNat) * x) * y := by rw [c1, one_mul]
      _ = ((a : ZMod m.toNat) * y) * x := by ring
      _ = x := by rw [c2, one_mul]
  exact intCast_inj_range hm0 hy0 hy1 h0 h1 hcc

/-- C6 counterexample: at `a = -1`, `m = 11` the gcd is `1`, yet the
source's extended Euclidean loop ends with `old_r = -1` and throws the
no-inverse error, so the claim as stated (for *every* integer `a`) is
false. -/
theorem modInverse_neg_arg_fails :
    modInverse (-1) 11 = .error .noInverse ∧ Int.gcd (-1) 11 = 1 := by decide

/-- Witness for `modInverse_spec_nonneg` at `a = 2`, `m = 11`. -/
theorem modInverse_spec_nonneg_witness :
    (Int.gcd 2 11 = 1 →
      ∃ x, modInverse 2 11 = .ok x ∧ 0 ≤ x ∧ x < 11 ∧ mod (2 * x) 11 = 1 ∧
        ∀ y, 0 ≤ y → y < 11 → mod (2 * y) 11 = 1 → y = x) ∧
    (Int.gcd 2 11 ≠ 1 → modInverse 2 11 = .error .noInverse) ∧
    modInverse 2 11 = .ok 6 ∧ modInverse 0 11 = .error .noInverse :=
  modInverse_spec_nonneg 2 11 (by decide) (by decide)

/-! ### `modPow` and `modSqrt` -/

theorem pow_binary {M : Type} [CommMonoid M] (b : M) (n : Nat) :
    b ^ n = (b * b) ^ (n / 2) * b ^ (n % 2) := by
  conv_lhs => rw [← Nat.div_add_mod n 2]
  rw [pow_add, pow_mul]
  congr 2
  rw [pow_two]

theorem modPowGo_le_zero {m : Int} (fuel : Nat) (res base e : Int) (he : ¬ 0 < e) :
    modPowGo m fuel res base e = res := by
  cases fuel <;> simp [modPowGo, he]

theorem modPowGo_zmod {m : Int} (hm : 0 < m) (fuel : Nat) :
    ∀ res base e : Int, 0 ≤ e → e.natAbs < fuel →
    ((modPowGo m fuel res base e : Int) : ZMod m.toNat) =
      (res : ZMod m.toNat) * (base : ZMod m.toNat) ^ e.toNat := by
  induction fuel with
  | zero => intro res base e he hf; omega
  | succ fuel ih =>
    intro res base e he hf
    by_cases hpos : 0 < e
    · simp only [modPowGo, if_pos hpos]
      obtain ⟨n, rfl⟩ := Int.eq_ofNat_of_zero_le he
      have hn1 : 1 ≤ n := by
        by_contra hc
        push_neg at hc
        omega
      have htd : ((n : Int)).tdiv 2 = ((n / 2 : Nat) : Int) := (Int.ofNat_tdiv n 2).symm
      have htm : ((n : Int)).tmod 2 = ((n % 2 : Nat) : Int) := by
        rw [Int.tmod_eq_emod (by positivity) (by norm_num)]
        exact (Int.ofNat_emod n 2).symm
      have hna : ((n : Int)).natAbs = n := Int.natAbs_ofNat n
      have hfu : (((n : Int)).tdiv 2).natAbs < fuel := by
        rw [htd]
        simp only [Int.natAbs_ofNat]
        have h2 : n / 2 < n := Nat.div_lt_self (by omega) (by omega)
        omega
      have hge : 0 ≤ ((n : Int)).tdiv 2 := by rw [htd]; positivity
      by_cases hodd : ((n : Int)).tmod 2 = 1
      · rw [if_pos hodd]
        have hodd' : n % 2 = 1 := by
          rw [htm] at hodd
          exact_mod_cast hodd
        rw [ih _ _ _ hge hfu, htd, Int.toNat_natCast, Int.toNat_natCast,
          intCast_mod_zmod hm, intCast_mod_zmod hm]
        push_cast
        rw [pow_binary ((base : ZMod m.toNat)) n, hodd', pow_one]
        ring
      · rw [if_neg hodd]
        have hodd' : n % 2 = 0 := by
          rw [htm] at hodd
          omega
        rw [ih _ _ _ hge hfu, htd, Int.toNat_natCast, Int.toNat_natCast,
          intCast_mod_zmod hm]
        push_cast
        rw [pow_binary ((base : ZMod m.toNat)) n, hodd', pow_zero, mul_one]
    · rw [modPowGo_le_zero _ _ _ _ hpos]
      have he0 : e = 0 := by omega
      subst he0
      simp

theorem modPow_zmod {m : Int} (hm : 0 < m) (base exp : Int) (he : 0 ≤ exp) :
    ((modPow base exp m : Int) : ZMod m.toNat) = (base : ZMod m.toNat) ^ exp.toNat := by
  unfold modPow
  rw [modPowGo_zmod hm _ _ _ _ he (by omega), intCast_mod_zmod hm]
  simp

theorem modPowGo_range {m : Int} (hm : 0 < m) (fuel : Nat) :
    ∀ res base e : Int, 1 ≤ e → e.natAbs < fuel →
    0 ≤ modPowGo m fuel res base e ∧ modPowGo m fuel res base e < m := by
  induction fuel with
  | zero => intro res base e he hf; omega
  | succ fuel ih =>
    intro res base e he hf
    simp only [modPowGo, if_pos (by omega : 0 < e)]
    by_cases h1 : e = 1
    · subst h1
      have ht : (1 : Int).tdiv 2 = 0 := rfl
      have hm1 : (1 : Int).tmod 2 = 1 := rfl
      rw [ht, hm1]
      simp only [if_pos rfl]
      rw [modPowGo_le_zero _ _ _ _ (by omega)]
      exact mod_bounds hm _
    · obtain ⟨n, rfl⟩ := Int.eq_ofNat_of_zero_le (by omega : (0:Int) ≤ e)
      have htd : ((n : Int)).tdiv 2 = ((n / 2 : Nat) : Int) := (Int.ofNat_tdiv n 2).symm
      have hn2 : 2 ≤ n := by
        have : (1:Int) ≤ (n:Int) := he
        have : n ≠ 1 := by
          intro hc
          exact h1 (by rw [hc]; norm_num)
        omega
      have hge : 1 ≤ ((n : Int)).tdiv 2 := by
        rw [htd]
        have : 1 ≤ n / 2 := Nat.one_le_div_iff (by omega) |>.mpr hn2
        exact_mod_cast this
      have hna : ((n : Int)).natAbs = n := Int.natAbs_ofNat n
      have hfu : (((n : Int)).tdiv 2).natAbs < fuel := by
        rw [htd]
        simp only [Int.natAbs_ofNat]
        have h2 : n / 2 < n := Nat.div_lt_self (by omega) (by omega)
        omega
      exact ih _ _ _ hge hfu

theorem mod_zero_eq {p : Int} (hp : 0 < p) : mod 0 p = 0 := by
  rw [mod_eq_emod hp]
  exact Int.zero_emod p

theorem sqrtGo_sound {p a1 : Int} (fuel : Nat) :
    ∀ i r, sqrtGo p a1 fuel i = some r → mod (r * r) p = a1 := by
  induction fuel with
  | zero => intro i r h; simp [sqrtGo] at h
  | succ fuel ih =>
    intro i r h
    unfold sqrtGo at h
    by_cases hip : i < p
    · rw [if_pos hip] at h
      by_cases hm : mod (i * i) p = a1
      · rw [if_pos hm] at h
        cases h
        exact hm
      · rw [if_neg hm] at h
        exact ih _ _ h
    · rw [if_neg hip] at h
      cases h

theorem sqrtGo_none {p a1 : Int} (fuel : Nat) :
    ∀ i, sqrtGo p a1 fuel i = none → (p - i).toNat ≤ fuel →
    ∀ j, i ≤ j → j < p → mod (j * j) p ≠ a1 := by
  induction fuel with
  | zero => intro i _ hc j h1 h2; omega
  | succ fuel ih =>
    intro i h hc j h1 h2
    unfold sqrtGo at h
    rw [if_pos (by omega)] at h
    by_cases hm : mod (i * i) p = a1
    · rw [if_pos hm] at h
      cases h
    · rw [if_neg hm] at h
      by_cases hij : j = i
      · subst hij
        exact hm
      · exact ih (i + 1) h (by omega) j (by omega) h2

/-- C5 (amended): for a prime `p > 0`, `modSqrt(a, p)` is sound
unconditionally, and complete provided `p ≡ 3 (mod 4)` or `a ≢ 0 (mod p)`:
it returns some `r` with `r² ≡ a (mod p)` whenever a square root exists,
and `none` otherwise.  (The brute-force loop starts at `i = 1`, so for
`p ≢ 3 (mod 4)` it misses the root of `a ≡ 0`.) -/
theorem modSqrt_spec (a p : Int) (hp : 0 < p) (hprime : Nat.Prime p.toNat)
    (hok : p.tmod 4 = 3 ∨ mod a p ≠ 0) :
    (∀ r, modSqrt a p = some r → mod (r * r) p = mod a p) ∧
    ((∃ s : Int, mod (s * s) p = mod a p) → ∃ r, modSqrt a p = some r) := by
  constructor
  · intro r hr
    simp only [modSqrt] at hr
    by_cases h4 : p.tmod 4 = 3
    · rw [if_pos h4] at hr
      by_cases hc : mod (modPow (mod a p) ((p + 1).tdiv 4) p *
          modPow (mod a p) ((p + 1).tdiv 4) p) p = mod a p
      · rw [if_pos hc] at hr
        cases hr
        exact hc
      · rw [if_neg hc] at hr
        cases hr
    · rw [if_neg h4] at hr
      exact sqrtGo_sound _ _ _ hr
  · rintro ⟨s, hs⟩
    simp only [modSqrt]
    by_cases h4 : p.tmod 4 = 3
    · rw [if_pos h4]
      haveI : Fact (Nat.Prime p.toNat) := ⟨hprime⟩
      have hpc : ((p.toNat : Nat) : Int) = p := Int.toNat_of_nonneg (le_of_lt hp)
      have hp4 : p % 4 = 3 := by
        rw [← Int.tmod_eq_emod (le_of_lt hp) (by norm_num)]
        exact h4
      have hpt4 : p.toNat % 4 = 3 := by omega
      have hpt3 : 3 ≤ p.toNat := by omega
      set u : Nat := (p.toNat + 1) / 4 with hu
      have hdvd : 4 * u = p.toNat + 1 := by omega
      have hu1 : 1 ≤ u := by omega
      have hE : (p + 1).tdiv 4 = ((u : Nat) : Int) := by
        have h1 : p + 1 = ((p.toNat + 1 : Nat) : Int) := by omega
        rw [h1]
        exact_mod_cast (Int.ofNat_tdiv (p.toNat + 1) 4).symm
      have hEnn : (0:Int) ≤ (p + 1).tdiv 4 := by rw [hE]; positivity
      have hEt : ((p + 1).tdiv 4).toNat = u := by rw [hE, Int.toNat_natCast]
      set X := modPow (mod a p) ((p + 1).tdiv 4) p with hX
      have hXcast : ((X : Int) : ZMod p.toNat) = ((a : ZMod p.toNat)) ^ u := by
        rw [hX, modPow_zmod hp _ _ hEnn, intCast_mod_zmod hp, hEt]
      have hXrange : 0 ≤ X ∧ X < p := by
        rw [hX]
        exact modPowGo_range hp _ _ _ _ (by rw [hE]; exact_mod_cast hu1) (by omega)
      have hscast : ((s : ZMod p.toNat)) * ((s : ZMod p.toNat)) = (a : ZMod p.toNat) := by
        have := congrArg (fun t : Int => (t : ZMod p.toNat)) hs
        simpa [intCast_mod_zmod hp] using this
      have hkey : ((a : ZMod p.toNat)) ^ u * ((a : ZMod p.toNat)) ^ u
          = (a : ZMod p.toNat) := by
        by_cases ha0 : (a : ZMod p.toNat) = 0
        · rw [ha0, zero_pow (by omega : u ≠ 0), mul_zero]
        · have hs0 : (s : ZMod p.toNat) ≠ 0 := by
            intro h0
            rw [h0, mul_zero] at hscast
            exact ha0 hscast.symm
          have hfermat : (s : ZMod p.toNat) ^ (p.toNat - 1) = 1 :=
            ZMod.pow_card_sub_one_eq_one hs0
          calc ((a : ZMod p.toNat)) ^ u * ((a : ZMod p.toNat)) ^ u
              = ((s : ZMod p.toNat) * (s : ZMod p.toNat)) ^ (2 * u) := by
                rw [← hscast]
                ring
            _ = (s : ZMod p.toNat) ^ (4 * u) := by
                rw [← pow_two, ← pow_mul]
                congr 1
                omega
            _ = (s : ZMod p.toNat) ^ (p.toNat - 1) * ((s : ZMod p.toNat)) ^ 2 := by
                rw [← pow_add]
                congr 1
                omega
            _ = (s : ZMod p.toNat) * (s : ZMod p.toNat) := by
                rw [hfermat, one_mul, pow_two]
            _ = (a : ZMod p.toNat) := hscast
      have hcond : mod (X * X) p = mod a p := by
        have hc1 : ((mod (X * X) p : Int) : ZMod p.toNat)
            = ((mod a p : Int) : ZMod p.toNat) := by
          rw [intCast_mod_zmod hp, intCast_mod_zmod hp]
          push_cast
          rw [hXcast]
          exact hkey
        exact intCast_inj_range hp (mod_bounds hp _).1 (mod_bounds hp _).2
          (mod_bounds hp _).1 (mod_bounds hp _).2 hc1
      exact ⟨X, by rw [if_pos hcond]⟩
    · rw [if_neg h4]
      have ha : mod a p ≠ 0 := hok.resolve_left h4
      cases hres : sqrtGo p (mod a p) p.natAbs 1 with
      | some r => exact ⟨r, rfl⟩
      | none =>
        exfalso
        have hall := sqrtGo_none p.natAbs 1 hres (by omega)
        have hj : mod (mod s p * mod s p) p = mod a p := by
          have h1 : mod (mod s p * mod s p) p = mod (s * s) p :=
            mod_congr hp ((mod_modEq s p).mul (mod_modEq s p))
          rw [h1, hs]
        have hjb := mod_bounds hp s
        have hj0 : mod s p ≠ 0 := by
          intro h0
          rw [h0, zero_mul, mod_zero_eq hp] at hj
          exact ha hj.symm
        exact absurd hj (hall (mod s p) (by omega) (by omega))

/-- C5 counterexample: `5` is a prime `> 0` and `0² ≡ 0 (mod 5)`, so a
square root of `a = 0` exists, yet `modSqrt 0 5` (the brute-force branch,
since `5 % 4 = 1`, searches only `i ∈ [1, 5)`) returns `none`.  The claim
as stated is therefore false. -/
theorem modSqrt_zero_residue_missed :
    modSqrt 0 5 = none ∧ Nat.Prime ((5 : Int)).toNat ∧
      (∃ s : Int, mod (s * s) 5 = mod 0 5) :=
  ⟨by decide, by decide, ⟨0, by decide⟩⟩

/-- Witness for `modSqrt_spec` at `a = 5`, `p = 11` (where `11 ≡ 3 mod 4`
and `5` is a quadratic residue). -/
theorem modSqrt_spec_witness :
    (∀ r, modSqrt 5 11 = some r → mod (r * r) 11 = mod 5 11) ∧
    ((∃ s : Int, mod (s * s) 11 = mod 5 11) → ∃ r, modSqrt 5 11 = some r) :=
  modSqrt_spec 5 11 (by decide) (by decide) (Or.inl (by decide))

/-! ### The falsy-coordinate guard and output canonicalization of `pointAdd` -/

/-- C9 (amended): when *both* arguments are non-infinity and either of them
has a `null` or `0` coordinate, `pointAdd` returns the point at infinity
from the truthiness guard, before the vertical-chord test or any
chord/tangent formula runs.  (When the other argument is the point at
infinity the identity branch fires first and returns the zero-coordinate
point unchanged — see the counterexample.) -/
theorem pointAdd_falsy_guard (P Q : Point) (c : CurveParams)
    (hP : P.isInfinity = false) (hQ : Q.isInfinity = false)
    (h : falsyCoord P.x = true ∨ falsyCoord P.y = true ∨
      falsyCoord Q.x = true ∨ falsyCoord Q.y = true) :
    pointAdd P Q c = .ok infPt := by
  unfold pointAdd
  rw [hP, hQ]
  simp only [Bool.false_eq_true, if_false]
  rw [if_pos]
  rcases h with h | h | h | h <;> simp [h]

/-- C9 counterexample: `(0, 1)` is a non-infinity point (even on the curve
`CURVE5`) with x-coordinate `0`, yet `pointAdd((0,1), ∞)` returns `(0, 1)`
itself (the infinity branch fires before the guard), not the point at
infinity. -/
theorem pointAdd_zero_x_inf_passthrough :
    pointAdd (affPt 0 1) infPt CURVE5 = .ok (affPt 0 1) ∧
    (affPt 0 1).isInfinity = false ∧ (affPt 0 1).x = some 0 ∧
    affPt 0 1 ≠ infPt ∧ AffPt CURVE5 0 1 := by decide

/-- Witness for `pointAdd_falsy_guard` at two affine points of `CURVE5`. -/
theorem pointAdd_falsy_guard_witness :
    pointAdd (affPt 0 1) (affPt 3 1) CURVE5 = .ok infPt :=
  pointAdd_falsy_guard (affPt 0 1) (affPt 3 1) CURVE5 rfl rfl (Or.inl (by decide))

theorem pointAdd_shape {P Q R : Point} {c : CurveParams} (hp : 0 < c.p)
    (h : pointAdd P Q c = .ok R) :
    R = P ∨ R = Q ∨ R = infPt ∨
      ∃ x y, R = affPt x y ∧ 0 ≤ x ∧ x < c.p ∧ 0 ≤ y ∧ y < c.p := by
  simp only [pointAdd] at h
  repeat' split at h
  all_goals first
    | exact Or.inl (Except.ok.inj h).symm
    | exact Or.inr (Or.inl (Except.ok.inj h).symm)
    | exact Or.inr (Or.inr (Or.inl (Except.ok.inj h).symm))
    | (refine Or.inr (Or.inr (Or.inr ⟨_, _, (Except.ok.inj h).symm, ?_, ?_, ?_, ?_⟩)) <;>
        first
          | exact (mod_bounds hp _).1
          | exact (mod_bounds hp _).2)
    | simp at h

theorem exceptBind_ok {epsilon alpha beta : Type} (a : alpha) (f : alpha → Except epsilon beta) :
    (Except.ok a >>= f) = f a := rfl

theorem exceptBind_error {epsilon alpha beta : Type} (e : epsilon) (f : alpha → Except epsilon beta) :
    ((Except.error e : Except epsilon alpha) >>= f) = Except.error e := rfl

theorem pointMulGo_shape {c : CurveParams} (hp : 0 < c.p) (P : Point) (fuel : Nat) :
    ∀ k R N Rf, pointMulGo c fuel k R N = .ok Rf →
    (R = P ∨ R = infPt ∨ ∃ x y, R = affPt x y ∧ 0 ≤ x ∧ x < c.p ∧ 0 ≤ y ∧ y < c.p) →
    (N = P ∨ N = infPt ∨ ∃ x y, N = affPt x y ∧ 0 ≤ x ∧ x < c.p ∧ 0 ≤ y ∧ y < c.p) →
    (Rf = P ∨ Rf = infPt ∨ ∃ x y, Rf = affPt x y ∧ 0 ≤ x ∧ x < c.p ∧ 0 ≤ y ∧ y < c.p) := by
  induction fuel with
  | zero =>
    intro k R N Rf h hR hN
    simp only [pointMulGo] at h
    cases h
    exact hR
  | succ fuel ih =>
    intro k R N Rf h hR hN
    simp only [pointMulGo] at h
    have tail : ∀ R2 : Point,
        (R2 = P ∨ R2 = infPt ∨ ∃ x y, R2 = affPt x y ∧ 0 ≤ x ∧ x < c.p ∧ 0 ≤ y ∧ y < c.p) →
        ((pointAdd N N c >>= fun N2 =>
          if k / 2 = 0 then Except.ok R2 else pointMulGo c fuel (k / 2) R2 N2) = Except.ok Rf) →
        (Rf = P ∨ Rf = infPt ∨ ∃ x y, Rf = affPt x y ∧ 0 ≤ x ∧ x < c.p ∧ 0 ≤ y ∧ y < c.p) := by
      intro R2 hmem hh
      rcases hN2 : pointAdd N N c with e | N2
      · rw [hN2, exceptBind_error] at hh
        cases hh
      · rw [hN2, exceptBind_ok] at hh
        have hN2mem : N2 = P ∨ N2 = infPt ∨
            ∃ x y, N2 = affPt x y ∧ 0 ≤ x ∧ x < c.p ∧ 0 ≤ y ∧ y < c.p := by
          rcases pointAdd_shape hp hN2 with h1 | h1 | h1 | h1
          · rw [h1]; exact hN
          · rw [h1]; exact hN
          · exact Or.inr (Or.inl h1)
          · exact Or.inr (Or.inr h1)
        by_cases hk2 : k / 2 = 0
        · rw [if_pos hk2] at hh
          cases hh
          exact hmem
        · rw [if_neg hk2] at hh
          exact ih _ _ _ _ hh hmem hN2mem
    by_cases hk : k % 2 = 1
    · rw [if_pos hk] at h
      rcases hAdd : pointAdd R N c with e | R2
      · rw [hAdd, exceptBind_error] at h
        cases h
      · rw [hAdd, exceptBind_ok] at h
        refine tail R2 ?_ h
        rcases pointAdd_shape hp hAdd with h1 | h1 | h1 | h1
        · rw [h1]; exact hR
        · rw [h1]; exact hN
        · exact Or.inr (Or.inl h1)
        · exact Or.inr (Or.inr h1)
    · rw [if_neg hk] at h
      rw [exceptBind_ok] at h
      exact tail R hR h

theorem pointMultiply_shape {c : CurveParams} (hp : 0 < c.p) (k : Nat) (P R : Point)
    (h : pointMultiply k P c = .ok R) :
    R = P ∨ R = infPt ∨ ∃ x y, R = affPt x y ∧ 0 ≤ x ∧ x < c.p ∧ 0 ≤ y ∧ y < c.p := by
  unfold pointMultiply at h
  by_cases hk : k = 0
  · rw [if_pos hk] at h
    rcases hD : pointAdd P P c with e | D
    · rw [hD, exceptBind_error] at h
      cases h
    · rw [hD, exceptBind_ok] at h
      cases h
      exact Or.inr (Or.inl rfl)
  · rw [if_neg hk] at h
    exact pointMulGo_shape hp P k k infPt P R h (Or.inr (Or.inl rfl)) (Or.inl rfl)

/-- C10 (amended): for `p > 0`, every point `pointAdd` returns is either
one of its two arguments passed through unchanged (the infinity branches),
the point at infinity, or a freshly computed affine point whose two
coordinates are reduced into `[0, p)`；`pointMultiply` accordingly returns
its input point unchanged, the point at infinity, or a canonical affine
point.  The claim as stated — *every* non-infinity output canonical for
arbitrary inputs — fails on the passthrough branches. -/
theorem pointAdd_canonical_outputs (c : CurveParams) (hp : 0 < c.p) :
    (∀ P Q R, pointAdd P Q c = .ok R →
      R = P ∨ R = Q ∨ R = infPt ∨
        ∃ x y, R = affPt x y ∧ 0 ≤ x ∧ x < c.p ∧ 0 ≤ y ∧ y < c.p) ∧
    (∀ k P R, pointMultiply k P c = .ok R →
      R = P ∨ R = infPt ∨
        ∃ x y, R = affPt x y ∧ 0 ≤ x ∧ x < c.p ∧ 0 ≤ y ∧ y < c.p) :=
  ⟨fun _ _ _ h => pointAdd_shape hp h, fun k P R h => pointMultiply_shape hp k P R h⟩

/-- C10 counterexample: with the point at infinity as the left argument,
`pointAdd` returns its right argument `(17, 23)` unchanged on the toy
curve (`p = 11`), a non-infinity point whose coordinates are not reduced
into `[0, 11)`. -/
theorem pointAdd_unreduced_passthrough :
    pointAdd infPt (affPt 17 23) TOY_CURVE = .ok (affPt 17 23) ∧
    (affPt 17 23).isInfinity = false ∧ ¬(17 : Int) < TOY_CURVE.p := by decide

/-- Witness for `pointAdd_canonical_outputs` at the toy curve. -/
theorem pointAdd_canonical_outputs_witness :
    (0:Int) < TOY_CURVE.p ∧
    ((∀ P Q R, pointAdd P Q TOY_CURVE = .ok R →
      R = P ∨ R = Q ∨ R = infPt ∨
        ∃ x y, R = affPt x y ∧ 0 ≤ x ∧ x < TOY_CURVE.p ∧ 0 ≤ y ∧ y < TOY_CURVE.p) ∧
    (∀ k P R, pointMultiply k P TOY_CURVE = .ok R →
      R = P ∨ R = infPt ∨
        ∃ x y, R = affPt x y ∧ 0 ≤ x ∧ x < TOY_CURVE.p ∧ 0 ≤ y ∧ y < TOY_CURVE.p)) :=
  ⟨by decide, pointAdd_canonical_outputs TOY_CURVE (by decide)⟩

/-! ### The chord/tangent branches of `pointAdd` -/

theorem pointAdd_eval_double {x1 y1 den : Int} {c : CurveParams}
    (hx : x1 ≠ 0) (hy : y1 ≠ 0)
    (hinv : modInverse (2 * y1) c.p = .ok den) :
    pointAdd (affPt x1 y1) (affPt x1 y1) c =
      .ok (affPt (mod (mod (mod (3 * x1 * x1 + c.a) c.p * den) c.p *
          mod (mod (3 * x1 * x1 + c.a) c.p * den) c.p - x1 - x1) c.p)
        (mod (mod (mod (3 * x1 * x1 + c.a) c.p * den) c.p *
          (x1 - mod (mod (mod (3 * x1 * x1 + c.a) c.p * den) c.p *
            mod (mod (3 * x1 * x1 + c.a) c.p * den) c.p - x1 - x1) c.p) - y1) c.p)) := by
  simp only [pointAdd, affPt, falsyCoord]
  rw [hinv]
  simp [hx, hy]

theorem pointAdd_eval_chord {x1 y1 x2 y2 den : Int} {c : CurveParams}
    (hx1 : x1 ≠ 0) (hy1 : y1 ≠ 0) (hx2 : x2 ≠ 0) (hy2 : y2 ≠ 0) (hne : x1 ≠ x2)
    (hinv : modInverse (mod (x2 - x1) c.p) c.p = .ok den) :
    pointAdd (affPt x1 y1) (affPt x2 y2) c =
      .ok (affPt (mod (mod (mod (y2 - y1) c.p * den) c.p *
          mod (mod (y2 - y1) c.p * den) c.p - x1 - x2) c.p)
        (mod (mod (mod (y2 - y1) c.p * den) c.p *
          (x1 - mod (mod (mod (y2 - y1) c.p * den) c.p *
            mod (mod (y2 - y1) c.p * den) c.p - x1 - x2) c.p) - y1) c.p)) := by
  simp only [pointAdd, affPt, falsyCoord]
  rw [hinv]
  simp [hx1, hy1, hx2, hy2, hne]

theorem modInverse_prime_ok {u p : Int} (hp2 : 1 < p) (hprime : Nat.Prime p.toNat)
    (hu : 0 ≤ u) (hnd : ¬ (p ∣ u)) :
    ∃ d, modInverse u p = .ok d ∧ 0 ≤ d ∧ d < p ∧ mod (u * d) p = 1 := by
  have hp0 : (0:Int) < p := by omega
  have hgcd : Int.gcd u p = 1 := by
    rw [Int.gcd_def, Nat.gcd_comm]
    have hpn : p.natAbs = p.toNat := by omega
    rw [hpn]
    refine (Nat.Prime.coprime_iff_not_dvd hprime).mpr ?_
    intro hdvd
    apply hnd
    have h1 : ((p.toNat : Nat) : Int) ∣ ((u.natAbs : Nat) : Int) := Int.natCast_dvd_natCast.mpr hdvd
    have h2 : ((p.toNat : Nat) : Int) = p := Int.toNat_of_nonneg (le_of_lt hp0)
    have h3 : ((u.natAbs : Nat) : Int) = u := Int.natAbs_of_nonneg hu
    rwa [h2, h3] at h1
  obtain ⟨x, hx⟩ : ∃ x, modInverse u p = .ok x := ⟨_, modInverse_gcd_one hu hp0 hgcd⟩
  obtain ⟨h0, h1, h2⟩ := modInverse_ok_spec hp0 hx
  rw [mod_one_eq hp2] at h2
  exact ⟨x, hx, h0, h1, h2⟩

theorem two_mul_not_dvd {y p : Int} (hp2 : 2 < p) (hprime : Nat.Prime p.toNat)
    (hy0 : 0 < y) (hy1 : y < p) : ¬ (p ∣ 2 * y) := by
  intro hdvd
  obtain ⟨k, hk⟩ := hdvd
  have hk1 : k = 1 := by nlinarith
  rw [hk1, mul_one] at hk
  have h2dvd : (2 : Int) ∣ p := ⟨y, hk.symm⟩
  have h2n : (2 : Nat) ∣ p.toNat := by
    have hpc : ((p.toNat : Nat) : Int) = p := Int.toNat_of_nonneg (by omega)
    exact_mod_cast hpc ▸ h2dvd
  rcases (Nat.Prime.eq_one_or_self_of_dvd hprime 2 h2n) with h | h
  · omega
  · omega

/-- C2 (amended): over an odd prime modulus, for canonical on-curve points
whose coordinates are all nonzero (so that the truthiness guard does not
fire) and that are not a vertical chord, `pointAdd` returns exactly the
chord/tangent point: `λ = (3x₁² + a)·(2y₁)⁻¹ mod p` when the points are
equal, `λ = (y₂ − y₁)·(x₂ − x₁)⁻¹ mod p` otherwise, and
`x₃ = λ² − x₁ − x₂ mod p`, `y₃ = λ(x₁ − x₃) − y₁ mod p`. -/
theorem pointAdd_chord_tangent (c : CurveParams) (hp2 : 2 < c.p)
    (hprime : Nat.Prime c.p.toNat) (x1 y1 x2 y2 : Int)
    (h1 : AffPt c x1 y1) (h2 : AffPt c x2 y2)
    (hz1 : x1 ≠ 0) (hzy1 : y1 ≠ 0) (hz2 : x2 ≠ 0) (hzy2 : y2 ≠ 0)
    (hvert : x1 = x2 → y1 = y2) :
    ∃ den lam,
      (if x1 = x2 then
        modInverse (2 * y1) c.p = .ok den ∧ lam = mod ((3 * x1 * x1 + c.a) * den) c.p
       else
        modInverse (mod (x2 - x1) c.p) c.p = .ok den ∧
          lam = mod ((y2 - y1) * den) c.p) ∧
      pointAdd (affPt x1 y1) (affPt x2 y2) c =
        .ok (affPt (mod (lam * lam - x1 - x2) c.p)
          (mod (lam * (x1 - mod (lam * lam - x1 - x2) c.p) - y1) c.p)) := by
  obtain ⟨hx10, hx11, hy10, hy11, hc1⟩ := h1
  obtain ⟨hx20, hx21, hy20, hy21, hc2⟩ := h2
  have hp0 : (0:Int) < c.p := by omega
  by_cases hxx : x1 = x2
  · subst hxx
    have hyy : y1 = y2 := hvert rfl
    subst hyy
    have hy0 : 0 < y1 := lt_of_le_of_ne hy10 (Ne.symm hzy1)
    obtain ⟨den, hden, _, _, _⟩ :=
      modInverse_prime_ok (by omega) hprime (by omega : (0:Int) ≤ 2 * y1)
        (two_mul_not_dvd hp2 hprime hy0 hy11)
    have hlam : mod (mod (3 * x1 * x1 + c.a) c.p * den) c.p
        = mod ((3 * x1 * x1 + c.a) * den) c.p :=
      mod_congr hp0 ((mod_modEq _ _).mul_right den)
    refine ⟨den, mod ((3 * x1 * x1 + c.a) * den) c.p, by rw [if_pos rfl]; exact ⟨hden, rfl⟩, ?_⟩
    rw [pointAdd_eval_double hz1 hzy1 hden, hlam]
  · have hu0 : mod (x2 - x1) c.p ≠ 0 := by
      intro h0
      have hdvd : c.p ∣ (x2 - x1) := by
        have := mod_eq_emod hp0 (x2 - x1)
        rw [this] at h0
        exact Int.dvd_of_emod_eq_zero h0
      have := Int.eq_zero_of_abs_lt_dvd hdvd (by rw [abs_lt]; constructor <;> omega)
      apply hxx
      omega
    have hub := mod_bounds hp0 (x2 - x1)
    have hnd : ¬ (c.p ∣ mod (x2 - x1) c.p) := by
      intro hdvd
      have := Int.le_of_dvd (by omega) hdvd
      omega
    obtain ⟨den, hden, _, _, _⟩ :=
      modInverse_prime_ok (by omega) hprime hub.1 hnd
    have hlam : mod (mod (y2 - y1) c.p * den) c.p = mod ((y2 - y1) * den) c.p :=
      mod_congr hp0 ((mod_modEq _ _).mul_right den)
    refine ⟨den, mod ((y2 - y1) * den) c.p, by rw [if_neg hxx]; exact ⟨hden, rfl⟩, ?_⟩
    rw [pointAdd_eval_chord hz1 hzy1 hz2 hzy2 hxx hden, hlam]

/-- C2 counterexample: `(0, 1)` and `(3, 1)` are canonical points on
`CURVE5` (`y² = x³ + x + 1` over `p = 5`), distinct x-coordinates, so the
chord law prescribes `λ = 0`, `x₃ = 2`, `y₃ = 4`; but `pointAdd` returns
the point at infinity because of the zero x-coordinate guard. -/
theorem pointAdd_chord_guard_clash :
    pointAdd (affPt 0 1) (affPt 3 1) CURVE5 = .ok infPt ∧
    AffPt CURVE5 0 1 ∧ AffPt CURVE5 3 1 ∧ (0 : Int) ≠ 3 ∧
    modInverse (mod (3 - 0) 5) 5 = .ok 2 ∧
    mod (mod ((1 - 1) * 2) 5 * mod ((1 - 1) * 2) 5 - 0 - 3) 5 = 2 ∧
    infPt ≠ affPt 2 4 := by decide

/-- Witness for `pointAdd_chord_tangent`: doubling the toy-curve generator
`(2, 4)`, which the spec's concrete scenario says must yield `(5, 9)`. -/
theorem pointAdd_chord_tangent_witness :
    ∃ den lam,
      (if (2:Int) = 2 then
        modInverse (2 * 4) TOY_CURVE.p = .ok den ∧
          lam = mod ((3 * 2 * 2 + TOY_CURVE.a) * den) TOY_CURVE.p
       else
        modInverse (mod (2 - 2) TOY_CURVE.p) TOY_CURVE.p = .ok den ∧
          lam = mod ((4 - 4) * den) TOY_CURVE.p) ∧
      pointAdd (affPt 2 4) (affPt 2 4) TOY_CURVE =
        .ok (affPt (mod (lam * lam - 2 - 2) TOY_CURVE.p)
          (mod (lam * (2 - mod (lam * lam - 2 - 2) TOY_CURVE.p) - 4) TOY_CURVE.p)) :=
  pointAdd_chord_tangent TOY_CURVE (by decide) (by decide) 2 4 2 4
    (by decide) (by decide) (by decide) (by decide) (by decide) (by decide)
    (fun _ => rfl)

/-! ### Koblitz embedding -/

theorem embedGo_found {msg K : Int} {c : CurveParams} (fuel : Nat) :
    ∀ j P, 0 ≤ j → embedGo msg K c fuel j = .ok P →
    ∃ j2 y, 0 ≤ j2 ∧ j2 < K ∧ P = affPt (msg * K + j2) y := by
  induction fuel with
  | zero => intro j P _ h; simp [embedGo] at h
  | succ fuel ih =>
    intro j P hj h
    unfold embedGo at h
    by_cases hjK : j < K
    · rw [if_pos hjK] at h
      split at h
      · next y heq =>
        cases h
        exact ⟨j, y, hj, hjK, rfl⟩
      · next heq =>
        exact ih (j + 1) P (by omega) h
    · rw [if_neg hjK] at h
      cases h

/-- C4: for every curve, padding factor `K` and non-negative message for
which the Koblitz embedding succeeds, un-embedding the resulting point with
the same `K` returns exactly the message, because the embedded
x-coordinate is `message·K + j` with `0 ≤ j < K` and the truncated bigint
division `x / K` drops `j`. -/
theorem embedMessageKoblitz_roundtrip (message : Int) (c : CurveParams) (K : Int)
    (hm : 0 ≤ message) (P : Point) (h : embedMessageKoblitz message c K = .ok P) :
    unembedMessageKoblitz P K = .ok message := by
  obtain ⟨j2, y, hj0, hjK, hP⟩ := embedGo_found _ 0 P (le_refl 0) h
  subst hP
  have hK : 0 < K := by omega
  simp only [unembedMessageKoblitz, affPt]
  rw [if_neg (by simp), if_neg (by omega : ¬ K = 0)]
  have hcomm : message * K + j2 = j2 + message * K := by ring
  have hnn : 0 ≤ message * K + j2 := by
    have : 0 ≤ message * K := mul_nonneg hm (le_of_lt hK)
    omega
  rw [Int.tdiv_eq_ediv hnn (le_of_lt hK), hcomm,
    Int.add_mul_ediv_right j2 message (by omega : K ≠ 0),
    Int.ediv_eq_zero_of_lt hj0 hjK]
  norm_num

/-- Witness for `embedMessageKoblitz_roundtrip`: message `12` on the toy
curve embeds (at `j = 1`) as `(241, 9)` and un-embeds back to `12`. -/
theorem embedMessageKoblitz_roundtrip_witness :
    unembedMessageKoblitz (affPt 241 9) 20 = .ok 12 :=
  embedMessageKoblitz_roundtrip 12 TOY_CURVE 20 (by decide) (affPt 241 9) (by decide)

/-! ### Decryption of a degenerate ciphertext, and trace observability -/

theorem pointMulGo_infPt (c : CurveParams) (fuel : Nat) :
    ∀ k, pointMulGo c fuel k infPt infPt = .ok infPt := by
  induction fuel with
  | zero => intro k; rfl
  | succ fuel ih =>
    intro k
    simp only [pointMulGo, show pointAdd infPt infPt c = Except.ok infPt from rfl,
      exceptBind_ok]
    by_cases hk : k % 2 = 1 <;> by_cases hk2 : k / 2 = 0 <;> simp [hk, hk2, ih]

theorem pointMultiply_infPt (k : Nat) (c : CurveParams) :
    pointMultiply k infPt c = .ok infPt := by
  unfold pointMultiply
  by_cases hk : k = 0
  · rw [if_pos hk]
    rfl
  · rw [if_neg hk]
    exact pointMulGo_infPt c k k

/-- C7: decrypting a malformed ciphertext whose `C1` is the point at
infinity computes `S = d·C1 = ∞`, whose `y` is `null`; the source then
evaluates `-S.y!`, coercing `null` to a Number, and `mod` mixes that
Number with a BigInt — an untyped JavaScript `TypeError`, modelled here as
`jsTypeError`.  No `InvalidCiphertextError` (or any typed error class)
exists anywhere in the repository, and `handleDecrypt` has no
`try`/`catch`, so the TypeError propagates out of the engine. -/
theorem elgamalDecrypt_inf_typeError (c2 : Point) (d : Nat) (c : CurveParams) :
    elgamalDecrypt infPt c2 d c = .error .jsTypeError := by
  unfold elgamalDecrypt
  rw [pointMultiply_infPt, exceptBind_ok]
  rfl

theorem pointAddT_fst (P Q : Point) (c : CurveParams) :
    (pointAddT P Q c).1 = pointAdd P Q c := by
  simp only [pointAddT, pointAdd]
  repeat' split
  all_goals rfl

theorem pointMulGoT_fst (c : CurveParams) (fuel : Nat) :
    ∀ k R N pos logs, (pointMulGoT c fuel k R N pos logs).1 = pointMulGo c fuel k R N := by
  induction fuel with
  | zero => intro k R N pos logs; rfl
  | succ fuel ih =>
    intro k R N pos logs
    simp only [pointMulGoT, pointMulGo]
    by_cases hk : k % 2 = 1
    · simp only [if_pos hk]
      rcases hA : pointAdd R N c with e | R2
      · simp [hA, exceptBind_error]
      · simp only [hA, exceptBind_ok]
        rcases hN : pointAdd N N c with e | N2
        · simp [hN, exceptBind_error]
        · simp only [hN, exceptBind_ok]
          by_cases hk2 : k / 2 = 0
          · simp [hk2]
          · simp [hk2, ih]
    · simp only [if_neg hk]
      simp only [exceptBind_ok]
      rcases hN : pointAdd N N c with e | N2
      · simp [hN, exceptBind_error]
      · simp only [hN, exceptBind_ok]
        by_cases hk2 : k / 2 = 0
        · simp [hk2]
        · simp [hk2, ih]

theorem pointMultiplyT_fst (k : Nat) (P : Point) (c : CurveParams) :
    (pointMultiplyT k P c).1 = pointMultiply k P c := by
  simp only [pointMultiplyT, pointMultiply]
  by_cases hk : k = 0
  · simp only [if_pos hk]
    rcases hA : pointAdd P P c with e | D
    · simp [hA, exceptBind_error]
    · simp [hA, exceptBind_ok]
  · simp only [if_neg hk]
    exact pointMulGoT_fst c k k infPt P 0 _

/-- C8: the trace callback is purely observational — supplying it changes
neither `pointAdd` nor `pointMultiply`'s returned point (two-run equality
over the optional `log` parameter); the accumulated strings are only ever
appended to the trace, never read back by the computation. -/
theorem trace_purely_observational :
    (∀ P Q c, (pointAddT P Q c).1 = pointAdd P Q c) ∧
    (∀ k P c, (pointMultiplyT k P c).1 = pointMultiply k P c) :=
  ⟨pointAddT_fst, pointMultiplyT_fst⟩

/-! ### Bridge to the Weierstrass-curve group law -/

theorem intCast_ne_zero_range {p : Int} (hp : 0 < p) {x : Int} (h0 : 0 < x) (h1 : x < p) :
    (x : ZMod p.toNat) ≠ 0 := by
  intro h
  have h2 : ((x : Int) : ZMod p.toNat) = ((0 : Int) : ZMod p.toNat) := by
    rw [h]
    simp
  have := intCast_inj_range hp (le_of_lt h0) h1 (le_refl 0) hp h2
  omega

theorem equation_int {c : CurveParams} (hp : 0 < c.p) {x y : Int}
    (h : mod (y * y) c.p = mod (x * x * x + c.a * x + c.b) c.p) :
    (toW c c.p.toNat).Equation ((x : ZMod c.p.toNat)) ((y : ZMod c.p.toNat)) := by
  rw [WeierstrassCurve.Affine.equation_iff]
  have hcast := congrArg (fun t : Int => (t : ZMod c.p.toNat)) h
  simp only [intCast_mod_zmod hp, Int.cast_mul, Int.cast_add] at hcast
  simp only [toW]
  push_cast at hcast ⊢
  linear_combination hcast

theorem int_equation {c : CurveParams} (hp : 0 < c.p) {x y : Int}
    (heq : (toW c c.p.toNat).Equation ((x : ZMod c.p.toNat)) ((y : ZMod c.p.toNat))) :
    mod (y * y) c.p = mod (x * x * x + c.a * x + c.b) c.p := by
  rw [WeierstrassCurve.Affine.equation_iff] at heq
  simp only [toW] at heq
  refine intCast_inj_range hp (mod_bounds hp _).1 (mod_bounds hp _).2
    (mod_bounds hp _).1 (mod_bounds hp _).2 ?_
  simp only [intCast_mod_zmod hp]
  push_cast
  linear_combination heq

theorem toW_delta {c : CurveParams} :
    (toW c c.p.toNat).Δ =
      -16 * (4 * ((c.a : ZMod c.p.toNat)) ^ 3 + 27 * ((c.b : ZMod c.p.toNat)) ^ 2) := by
  simp only [WeierstrassCurve.Δ, WeierstrassCurve.b₂, WeierstrassCurve.b₄,
    WeierstrassCurve.b₆, WeierstrassCurve.b₈, toW]
  ring

theorem prime_cast_ne_zero {c : CurveParams} (hg : GoodCurve c) {n : Nat}
    (hn : ¬ (c.p.toNat ∣ n)) : ((n : Nat) : ZMod c.p.toNat) ≠ 0 := by
  intro h
  exact hn ((ZMod.natCast_zmod_eq_zero_iff_dvd n c.p.toNat).mp h)

theorem nonsingular_of_affpt {c : CurveParams} (hg : GoodCurve c) {x y : Int}
    (h : AffPt c x y) :
    (toW c c.p.toNat).Nonsingular ((x : ZMod c.p.toNat)) ((y : ZMod c.p.toNat)) := by
  have hp : (0:Int) < c.p := by have := hg.hp2; omega
  haveI : Fact (Nat.Prime c.p.toNat) := ⟨hg.hprime⟩
  refine (toW c c.p.toNat).nonsingular_of_Δ_ne_zero (equation_int hp h.2.2.2.2) ?_
  rw [toW_delta]
  have hpt3 : 3 ≤ c.p.toNat := by have := hg.hp2; omega
  apply mul_ne_zero
  · have h16 : ((16 : Nat) : ZMod c.p.toNat) ≠ 0 := by
      refine prime_cast_ne_zero hg ?_
      intro hdvd
      have h2 : c.p.toNat ∣ 2 ^ 4 := by norm_num at hdvd ⊢; exact hdvd
      have := (Nat.Prime.dvd_of_dvd_pow hg.hprime h2)
      have := Nat.le_of_dvd (by omega) this
      omega
    intro h0
    apply h16
    have : ((16 : Nat) : ZMod c.p.toNat) = (16 : ZMod c.p.toNat) := by push_cast; rfl
    rw [this]
    linear_combination -h0
  · intro h0
    apply hg.hdisc
    have hcast : ((mod (4 * c.a ^ 3 + 27 * c.b ^ 2) c.p : Int) : ZMod c.p.toNat)
        = ((0 : Int) : ZMod c.p.toNat) := by
      rw [intCast_mod_zmod hp]
      push_cast
      rw [h0]
    exact intCast_inj_range hp (mod_bounds hp _).1 (mod_bounds hp _).2
      (le_refl 0) hp hcast

theorem affpt_nonzero {c : CurveParams} (hg : GoodCurve c) {x y : Int}
    (h : AffPt c x y) : x ≠ 0 ∧ y ≠ 0 := by
  obtain ⟨hx0, hx1, hy0, hy1, hcv⟩ := h
  have hp : (0:Int) < c.p := by have := hg.hp2; omega
  have hxx : ((x.toNat : Nat) : Int) = x := Int.toNat_of_nonneg hx0
  have hyy : ((y.toNat : Nat) : Int) = y := Int.toNat_of_nonneg hy0
  have := hg.hnz x.toNat (by omega) y.toNat (by omega) (by rw [hxx, hyy]; exact hcv)
  constructor <;> omega

theorem point_some_congr {F : Type} [CommRing F] {W : WeierstrassCurve.Affine F}
    {x1 y1 x2 y2 : F} (hx : x1 = x2) (hy : y1 = y2)
    (h1 : W.Nonsingular x1 y1) (h2 : W.Nonsingular x2 y2) :
    WeierstrassCurve.Affine.Point.some h1 = WeierstrassCurve.Affine.Point.some h2 := by
  subst hx
  subst hy
  rfl

theorem toW_negY {c : CurveParams} {pn : Nat} (x y : ZMod pn) :
    (toW c pn).negY x y = -y := by
  simp [WeierstrassCurve.Affine.negY, toW]

theorem toW_addX {c : CurveParams} {pn : Nat} (x1 x2 L : ZMod pn) :
    (toW c pn).addX x1 x2 L = L ^ 2 - x1 - x2 := by
  simp [WeierstrassCurve.Affine.addX, toW]

theorem toW_addY {c : CurveParams} {pn : Nat} (x1 x2 y1 L : ZMod pn) :
    (toW c pn).addY x1 x2 y1 L = L * (x1 - (toW c pn).addX x1 x2 L) - y1 := by
  simp [WeierstrassCurve.Affine.addY, WeierstrassCurve.Affine.negAddY,
    WeierstrassCurve.Affine.negY, toW]
  ring

theorem toW_slope_double {c : CurveParams} {pn : Nat} [Fact (Nat.Prime pn)]
    {x1 y1 : ZMod pn} (hy : y1 ≠ (toW c pn).negY x1 y1) :
    (toW c pn).slope x1 x1 y1 y1 =
      (3 * x1 ^ 2 + (c.a : ZMod pn)) / (2 * y1) := by
  rw [WeierstrassCurve.Affine.slope_of_Y_ne rfl hy, toW_negY]
  have h1 : y1 - -y1 = 2 * y1 := by ring
  rw [h1]
  congr 1
  simp [toW]

theorem y_eq_or_neg {c : CurveParams} {pn : Nat} [Fact (Nat.Prime pn)]
    {x y1 y2 : ZMod pn} (h1 : (toW c pn).Equation x y1) (h2 : (toW c pn).Equation x y2) :
    y1 = y2 ∨ y1 = -y2 := by
  rw [WeierstrassCurve.Affine.equation_iff] at h1 h2
  have hz : (y1 - y2) * (y1 + y2) = 0 := by
    simp only [toW] at h1 h2
    linear_combination h1 - h2
  rcases mul_eq_zero.mp hz with h | h
  · left
    linear_combination h
  · right
    linear_combination h

theorem pointAdd_eval_vertical {x1 y1 y2 : Int} {c : CurveParams}
    (hx : x1 ≠ 0) (hy1 : y1 ≠ 0) (hy2 : y2 ≠ 0) (hne : y1 ≠ y2) :
    pointAdd (affPt x1 y1) (affPt x1 y2) c = .ok infPt := by
  simp [pointAdd, affPt, falsyCoord, hx, hy1, hy2, hne]

theorem pointAdd_bridge {c : CurveParams} [Fact (Nat.Prime c.p.toNat)] (hg : GoodCurve c)
    {P Q : Point} {A B : (toW c c.p.toNat).Point}
    (hA : ReprPt c c.p.toNat P A) (hB : ReprPt c c.p.toNat Q B) :
    ∃ R, pointAdd P Q c = .ok R ∧ ReprPt c c.p.toNat R (A + B) := by
  have hp : (0:Int) < c.p := by have := hg.hp2; omega
  cases hA with
  | inf =>
    refine ⟨Q, rfl, ?_⟩
    rw [zero_add]
    exact hB
  | aff x1 y1 hx10 hx11 hy10 hy11 h1 =>
    cases hB with
    | inf =>
      refine ⟨affPt x1 y1, rfl, ?_⟩
      rw [add_zero]
      exact ReprPt.aff x1 y1 hx10 hx11 hy10 hy11 h1
    | aff x2 y2 hx20 hx21 hy20 hy21 h2 =>
      have ha1 : AffPt c x1 y1 := ⟨hx10, hx11, hy10, hy11, int_equation hp h1.1⟩
      have ha2 : AffPt c x2 y2 := ⟨hx20, hx21, hy20, hy21, int_equation hp h2.1⟩
      obtain ⟨hz1, hzy1⟩ := affpt_nonzero hg ha1
      obtain ⟨hz2, hzy2⟩ := affpt_nonzero hg ha2
      have hy1c : (y1 : ZMod c.p.toNat) ≠ 0 := intCast_ne_zero_range hp (by omega) hy11
      have h2c : ((2:Nat) : ZMod c.p.toNat) ≠ 0 := by
        refine prime_cast_ne_zero hg ?_
        intro hd
        have h2le := Nat.le_of_dvd (by norm_num) hd
        have := hg.hp2
        omega
      by_cases hxx : x1 = x2
      · subst hxx
        by_cases hyy : y1 = y2
        · subst hyy
          have hy1pos : 0 < y1 := by omega
          obtain ⟨den, hden, hd0, hd1, hdmod⟩ :=
            modInverse_prime_ok (by omega) hg.hprime (by omega : (0:Int) ≤ 2 * y1)
              (two_mul_not_dvd hg.hp2 hg.hprime hy1pos hy11)
          have hdcast : 2 * (y1 : ZMod c.p.toNat) * (den : ZMod c.p.toNat) = 1 := by
            have hh := congrArg (fun t : Int => (t : ZMod c.p.toNat)) hdmod
            simp only [intCast_mod_zmod hp, Int.cast_mul, Int.cast_one] at hh
            push_cast at hh
            linear_combination hh
          have hdinv : ((den : Int) : ZMod c.p.toNat) = (2 * (y1 : ZMod c.p.toNat))⁻¹ :=
            eq_inv_of_mul_eq_one_left (by linear_combination hdcast)
          have hyne : (y1 : ZMod c.p.toNat) ≠
              (toW c c.p.toNat).negY (x1 : ZMod c.p.toNat) (y1 : ZMod c.p.toNat) := by
            rw [toW_negY]
            intro hcon
            have h20 : ((2:Nat) : ZMod c.p.toNat) * (y1 : ZMod c.p.toNat) = 0 := by
              push_cast
              linear_combination hcon
            rcases mul_eq_zero.mp h20 with h | h
            exacts [h2c h, hy1c h]
          have hlam : ((mod (mod (3 * x1 * x1 + c.a) c.p * den) c.p : Int) : ZMod c.p.toNat)
              = (toW c c.p.toNat).slope (x1 : ZMod c.p.toNat) (x1 : ZMod c.p.toNat)
                  (y1 : ZMod c.p.toNat) (y1 : ZMod c.p.toNat) := by
            rw [toW_slope_double hyne, intCast_mod_zmod hp, Int.cast_mul,
              intCast_mod_zmod hp, hdinv, div_eq_mul_inv]
            push_cast
            ring
          have ex : ((mod (mod (mod (3 * x1 * x1 + c.a) c.p * den) c.p *
                mod (mod (3 * x1 * x1 + c.a) c.p * den) c.p - x1 - x1) c.p : Int) : ZMod c.p.toNat)
              = (toW c c.p.toNat).addX (x1 : ZMod c.p.toNat) (x1 : ZMod c.p.toNat)
                  ((toW c c.p.toNat).slope (x1 : ZMod c.p.toNat) (x1 : ZMod c.p.toNat)
                    (y1 : ZMod c.p.toNat) (y1 : ZMod c.p.toNat)) := by
            rw [toW_addX, intCast_mod_zmod hp]
            push_cast
            rw [hlam]
            ring
          have ey : ((mod (mod (mod (3 * x1 * x1 + c.a) c.p * den) c.p *
                (x1 - mod (mod (mod (3 * x1 * x1 + c.a) c.p * den) c.p *
                  mod (mod (3 * x1 * x1 + c.a) c.p * den) c.p - x1 - x1) c.p) - y1) c.p : Int) :
                  ZMod c.p.toNat)
              = (toW c c.p.toNat).addY (x1 : ZMod c.p.toNat) (x1 : ZMod c.p.toNat)
                  (y1 : ZMod c.p.toNat)
                  ((toW c c.p.toNat).slope (x1 : ZMod c.p.toNat) (x1 : ZMod c.p.toNat)
                    (y1 : ZMod c.p.toNat) (y1 : ZMod c.p.toNat)) := by
            rw [toW_addY, ← ex, intCast_mod_zmod hp]
            push_cast
            rw [hlam]
          have hnons := WeierstrassCurve.Affine.nonsingular_add h1 h2 (fun _ => hyne)
          have hnons2 : (toW c c.p.toNat).Nonsingular
              ((mod (mod (mod (3 * x1 * x1 + c.a) c.p * den) c.p *
                mod (mod (3 * x1 * x1 + c.a) c.p * den) c.p - x1 - x1) c.p : Int) : ZMod c.p.toNat)
              ((mod (mod (mod (3 * x1 * x1 + c.a) c.p * den) c.p *
                (x1 - mod (mod (mod (3 * x1 * x1 + c.a) c.p * den) c.p *
                  mod (mod (3 * x1 * x1 + c.a) c.p * den) c.p - x1 - x1) c.p) - y1) c.p : Int) :
                  ZMod c.p.toNat) := by
            rw [ex, ey]
            exact hnons
          have hAB : WeierstrassCurve.Affine.Point.some h1 +
              WeierstrassCurve.Affine.Point.some h2 =
              WeierstrassCurve.Affine.Point.some hnons2 := by
            rw [WeierstrassCurve.Affine.Point.add_of_Y_ne hyne]
            exact point_some_congr ex.symm ey.symm _ _
          refine ⟨_, pointAdd_eval_double hz1 hzy1 hden, ?_⟩
          rw [hAB]
          exact ReprPt.aff _ _ (mod_bounds hp _).1 (mod_bounds hp _).2
            (mod_bounds hp _).1 (mod_bounds hp _).2 hnons2
        · have hneg : (y1 : ZMod c.p.toNat) = -(y2 : ZMod c.p.toNat) := by
            rcases y_eq_or_neg h1.1 h2.1 with h | h
            · exact absurd (intCast_inj_range hp hy10 hy11 hy20 hy21 h) hyy
            · exact h
          have hAB : WeierstrassCurve.Affine.Point.some h1 +
              WeierstrassCurve.Affine.Point.some h2 = 0 := by
            refine WeierstrassCurve.Affine.Point.add_of_Y_eq rfl ?_
            rw [toW_negY]
            exact hneg
          refine ⟨infPt, pointAdd_eval_vertical hz1 hzy1 hzy2 hyy, ?_⟩
          rw [hAB]
          exact ReprPt.inf
      · have hxc : (x1 : ZMod c.p.toNat) ≠ (x2 : ZMod c.p.toNat) := by
          intro h
          exact hxx (intCast_inj_range hp hx10 hx11 hx20 hx21 h)
        have hu0 : mod (x2 - x1) c.p ≠ 0 := by
          intro h0
          have hdvd : c.p ∣ (x2 - x1) := by
            have he := mod_eq_emod hp (x2 - x1)
            rw [he] at h0
            exact Int.dvd_of_emod_eq_zero h0
          have := Int.eq_zero_of_abs_lt_dvd hdvd (by rw [abs_lt]; constructor <;> omega)
          apply hxx
          omega
        have hub := mod_bounds hp (x2 - x1)
        have hnd : ¬ (c.p ∣ mod (x2 - x1) c.p) := by
          intro hdvd
          have := Int.le_of_dvd (by omega) hdvd
          omega
        obtain ⟨den, hden, hd0, hd1, hdmod⟩ :=
          modInverse_prime_ok (by omega) hg.hprime hub.1 hnd
        have hdcast : ((x2 : ZMod c.p.toNat) - (x1 : ZMod c.p.toNat)) *
            ((den : Int) : ZMod c.p.toNat) = 1 := by
          have hh := congrArg (fun t : Int => (t : ZMod c.p.toNat)) hdmod
          simp only [intCast_mod_zmod hp, Int.cast_mul, Int.cast_one, Int.cast_sub] at hh
          exact hh
        have hdinv : ((den : Int) : ZMod c.p.toNat) =
            ((x2 : ZMod c.p.toNat) - (x1 : ZMod c.p.toNat))⁻¹ :=
          eq_inv_of_mul_eq_one_left (by linear_combination hdcast)
        have hslope : (toW c c.p.toNat).slope (x1 : ZMod c.p.toNat) (x2 : ZMod c.p.toNat)
              (y1 : ZMod c.p.toNat) (y2 : ZMod c.p.toNat)
            = ((y2 : ZMod c.p.toNat) - (y1 : ZMod c.p.toNat)) *
              ((x2 : ZMod c.p.toNat) - (x1 : ZMod c.p.toNat))⁻¹ := by
          rw [WeierstrassCurve.Affine.slope_of_X_ne hxc, ← div_eq_mul_inv,
            div_eq_div_iff (sub_ne_zero.mpr hxc) (sub_ne_zero.mpr (Ne.symm hxc))]
          ring
        have hlam : ((mod (mod (y2 - y1) c.p * den) c.p : Int) : ZMod c.p.toNat)
            = (toW c c.p.toNat).slope (x1 : ZMod c.p.toNat) (x2 : ZMod c.p.toNat)
                (y1 : ZMod c.p.toNat) (y2 : ZMod c.p.toNat) := by
          rw [hslope, intCast_mod_zmod hp, Int.cast_mul, intCast_mod_zmod hp,
            Int.cast_sub, hdinv]
        have ex : ((mod (mod (mod (y2 - y1) c.p * den) c.p *
              mod (mod (y2 - y1) c.p * den) c.p - x1 - x2) c.p : Int) : ZMod c.p.toNat)
            = (toW c c.p.toNat).addX (x1 : ZMod c.p.toNat) (x2 : ZMod c.p.toNat)
                ((toW c c.p.toNat).slope (x1 : ZMod c.p.toNat) (x2 : ZMod c.p.toNat)
                  (y1 : ZMod c.p.toNat) (y2 : ZMod c.p.toNat)) := by
          rw [toW_addX, intCast_mod_zmod hp]
          push_cast
          rw [hlam]
          ring
        have ey : ((mod (mod (mod (y2 - y1) c.p * den) c.p *
              (x1 - mod (mod (mod (y2 - y1) c.p * den) c.p *
                mod (mod (y2 - y1) c.p * den) c.p - x1 - x2) c.p) - y1) c.p : Int) :
                ZMod c.p.toNat)
            = (toW c c.p.toNat).addY (x1 : ZMod c.p.toNat) (x2 : ZMod c.p.toNat)
                (y1 : ZMod c.p.toNat)
                ((toW c c.p.toNat).slope (x1 : ZMod c.p.toNat) (x2 : ZMod c.p.toNat)
                  (y1 : ZMod c.p.toNat) (y2 : ZMod c.p.toNat)) := by
          rw [toW_addY, ← ex, intCast_mod_zmod hp]
          push_cast
          rw [hlam]
        have hnons := WeierstrassCurve.Affine.nonsingular_add h1 h2 (fun hc => absurd hc hxc)
        have hnons2 : (toW c c.p.toNat).Nonsingular
            ((mod (mod (mod (y2 - y1) c.p * den) c.p *
              mod (mod (y2 - y1) c.p * den) c.p - x1 - x2) c.p : Int) : ZMod c.p.toNat)
            ((mod (mod (mod (y2 - y1) c.p * den) c.p *
              (x1 - mod (mod (mod (y2 - y1) c.p * den) c.p *
                mod (mod (y2 - y1) c.p * den) c.p - x1 - x2) c.p) - y1) c.p : Int) :
                ZMod c.p.toNat) := by
          rw [ex, ey]
          exact hnons
        have hAB : WeierstrassCurve.Affine.Point.some h1 +
            WeierstrassCurve.Affine.Point.some h2 =
            WeierstrassCurve.Affine.Point.some hnons2 := by
          rw [WeierstrassCurve.Affine.Point.add_of_X_ne hxc]
          exact point_some_congr ex.symm ey.symm _ _
        refine ⟨_, pointAdd_eval_chord hz1 hzy1 hz2 hzy2 hxx hden, ?_⟩
        rw [hAB]
        exact ReprPt.aff _ _ (mod_bounds hp _).1 (mod_bounds hp _).2
          (mod_bounds hp _).1 (mod_bounds hp _).2 hnons2

theorem negPoint_bridge {c : CurveParams} [Fact (Nat.Prime c.p.toNat)] (hg : GoodCurve c)
    {x y : Int}
    (h : (toW c c.p.toNat).Nonsingular ((x : ZMod c.p.toNat)) ((y : ZMod c.p.toNat)))
    (hx0 : 0 ≤ x) (hx1 : x < c.p) :
    ReprPt c c.p.toNat (affPt x (mod (-y) c.p)) (-(WeierstrassCurve.Affine.Point.some h)) := by
  have hp : (0:Int) < c.p := by have := hg.hp2; omega
  rw [WeierstrassCurve.Affine.Point.neg_some]
  have ey : ((mod (-y) c.p : Int) : ZMod c.p.toNat)
      = (toW c c.p.toNat).negY ((x : ZMod c.p.toNat)) ((y : ZMod c.p.toNat)) := by
    rw [toW_negY, intCast_mod_zmod hp]
    push_cast
    ring
  have hns2 : (toW c c.p.toNat).Nonsingular ((x : ZMod c.p.toNat))
      ((mod (-y) c.p : Int) : ZMod c.p.toNat) := by
    rw [ey]
    exact WeierstrassCurve.Affine.nonsingular_neg h
  have hcongr : WeierstrassCurve.Affine.Point.some
      (WeierstrassCurve.Affine.nonsingular_neg h) = WeierstrassCurve.Affine.Point.some hns2 :=
    point_some_congr rfl ey.symm _ _
  rw [hcongr]
  exact ReprPt.aff x (mod (-y) c.p) hx0 hx1 (mod_bounds hp _).1 (mod_bounds hp _).2 hns2

theorem reprPt_inversion {c : CurveParams} {pn : Nat} {P : Point}
    {A : (toW c pn).Point} (h : ReprPt c pn P A) :
    (P = infPt ∧ A = 0) ∨
    (∃ x y : Int, ∃ hn : (toW c pn).Nonsingular ((x : ZMod pn)) ((y : ZMod pn)),
      P = affPt x y ∧ 0 ≤ x ∧ x < c.p ∧ 0 ≤ y ∧ y < c.p ∧
        A = WeierstrassCurve.Affine.Point.some hn) := by
  cases h with
  | inf => exact Or.inl ⟨rfl, rfl⟩
  | aff x y hx0 hx1 hy0 hy1 hn =>
    exact Or.inr ⟨x, y, hn, rfl, hx0, hx1, hy0, hy1, rfl⟩

theorem reprPt_unique {c : CurveParams} (hp : 0 < c.p) {P P' : Point}
    {A : (toW c c.p.toNat).Point}
    (h : ReprPt c c.p.toNat P A) (h' : ReprPt c c.p.toNat P' A) : P = P' := by
  rcases reprPt_inversion h with ⟨hP, hA⟩ | ⟨x, y, hn, hP, hx0, hx1, hy0, hy1, hA⟩ <;>
    rcases reprPt_inversion h' with ⟨hP', hA'⟩ | ⟨x', y', hn', hP', hx0', hx1', hy0', hy1', hA'⟩
  · rw [hP, hP']
  · exfalso
    rw [hA] at hA'
    exact WeierstrassCurve.Affine.Point.some_ne_zero hn' hA'.symm
  · exfalso
    rw [hA] at hA'
    exact WeierstrassCurve.Affine.Point.some_ne_zero hn hA'
  · rw [hA] at hA'
    injection hA' with h1 h2
    rw [hP, hP', intCast_inj_range hp hx0 hx1 hx0' hx1' h1,
      intCast_inj_range hp hy0 hy1 hy0' hy1' h2]

theorem reprPt_zero_inf {c : CurveParams} (hp : 0 < c.p) {P : Point}
    (h : ReprPt c c.p.toNat P 0) : P = infPt := by
  rcases reprPt_inversion h with ⟨hP, _⟩ | ⟨x, y, hn, hP, _, _, _, _, hA⟩
  · exact hP
  · exact absurd hA.symm (WeierstrassCurve.Affine.Point.some_ne_zero hn)

theorem pointMulGo_bridge {c : CurveParams} [Fact (Nat.Prime c.p.toNat)] (hg : GoodCurve c)
    (fuel : Nat) : ∀ (k : Nat) (R N : Point) (A B : (toW c c.p.toNat).Point),
    k ≠ 0 → k ≤ fuel → ReprPt c c.p.toNat R A → ReprPt c c.p.toNat N B →
    ∃ Rf, pointMulGo c fuel k R N = .ok Rf ∧ ReprPt c c.p.toNat Rf (A + k • B) := by
  induction fuel with
  | zero => intro k _ _ _ _ hk hf _ _; omega
  | succ fuel ih =>
    intro k R N A B hk hf hA hB
    simp only [pointMulGo]
    by_cases hk1 : k % 2 = 1
    · rw [if_pos hk1]
      obtain ⟨R2, hR2, hR2r⟩ := pointAdd_bridge hg hA hB
      rw [hR2, exceptBind_ok]
      obtain ⟨N2, hN2, hN2r⟩ := pointAdd_bridge hg hB hB
      rw [hN2, exceptBind_ok]
      by_cases hk2 : k / 2 = 0
      · rw [if_pos hk2]
        refine ⟨R2, rfl, ?_⟩
        have hk' : k = 1 := by omega
        subst hk'
        simpa using hR2r
      · rw [if_neg hk2]
        obtain ⟨Rf, hRf, hRfr⟩ := ih (k / 2) R2 N2 (A + B) (B + B) hk2 (by omega) hR2r hN2r
        refine ⟨Rf, hRf, ?_⟩
        have h2B : (k / 2) • (B + B) = (2 * (k / 2)) • B := by
          rw [show B + B = 2 • B from (two_smul ℕ B).symm, ← mul_nsmul B 2 (k / 2)]
        have harith : (A + B) + (k / 2) • (B + B) = A + k • B := by
          rw [h2B]
          have hksplit : 1 + 2 * (k / 2) = k := by omega
          calc A + B + (2 * (k / 2)) • B = A + (1 + 2 * (k / 2)) • B := by
                rw [add_nsmul, one_smul, add_assoc]
            _ = A + k • B := by rw [hksplit]
        rwa [harith] at hRfr
    · rw [if_neg hk1]
      rw [exceptBind_ok]
      obtain ⟨N2, hN2, hN2r⟩ := pointAdd_bridge hg hB hB
      rw [hN2, exceptBind_ok]
      by_cases hk2 : k / 2 = 0
      · omega
      · rw [if_neg hk2]
        obtain ⟨Rf, hRf, hRfr⟩ := ih (k / 2) R N2 A (B + B) hk2 (by omega) hA hN2r
        refine ⟨Rf, hRf, ?_⟩
        have harith : A + (k / 2) • (B + B) = A + k • B := by
          rw [show B + B = 2 • B from (two_smul ℕ B).symm, ← mul_nsmul B 2 (k / 2),
            show 2 * (k / 2) = k by omega]
        rwa [harith] at hRfr

theorem pointMultiply_bridge {c : CurveParams} [Fact (Nat.Prime c.p.toNat)] (hg : GoodCurve c)
    {P : Point} {A : (toW c c.p.toNat).Point} (hA : ReprPt c c.p.toNat P A) (k : Nat) :
    ∃ R, pointMultiply k P c = .ok R ∧ ReprPt c c.p.toNat R (k • A) := by
  unfold pointMultiply
  by_cases hk : k = 0
  · rw [if_pos hk]
    obtain ⟨D, hD, _⟩ := pointAdd_bridge hg hA hA
    rw [hD, exceptBind_ok]
    refine ⟨infPt, rfl, ?_⟩
    rw [hk, zero_nsmul]
    exact ReprPt.inf
  · rw [if_neg hk]
    obtain ⟨R, hR, hRr⟩ := pointMulGo_bridge hg k k infPt P 0 A hk (le_refl k) ReprPt.inf hA
    refine ⟨R, hR, ?_⟩
    rwa [zero_add] at hRr

/-- C3 (amended): on a curve with odd prime modulus, nonzero discriminant
and no affine point with a zero coordinate, scalar multiplication is an
additive homomorphism on every valid point: `pointMultiply (j+k) P`
equals `pointAdd (pointMultiply j P) (pointMultiply k P)` (all in the
error monad, and none of the calls throws), and `pointMultiply 0 P` is
the point at infinity. -/
theorem pointMultiply_additive (c : CurveParams) (hg : GoodCurve c)
    (P : Point) (hP : ValidPoint c P) (j k : Nat) :
    pointMultiply (j + k) P c =
      (pointMultiply j P c >>= fun Aj =>
        pointMultiply k P c >>= fun Ak => pointAdd Aj Ak c) ∧
    pointMultiply 0 P c = .ok infPt := by
  haveI : Fact (Nat.Prime c.p.toNat) := ⟨hg.hprime⟩
  have hp : (0:Int) < c.p := by have := hg.hp2; omega
  have hrepr : ∃ A, ReprPt c c.p.toNat P A := by
    rcases hP with h | ⟨x, y, hPeq, hxy⟩
    · exact ⟨0, h ▸ ReprPt.inf⟩
    · exact ⟨.some (nonsingular_of_affpt hg hxy),
        hPeq ▸ ReprPt.aff x y hxy.1 hxy.2.1 hxy.2.2.1 hxy.2.2.2.1
          (nonsingular_of_affpt hg hxy)⟩
  obtain ⟨A, hA⟩ := hrepr
  constructor
  · obtain ⟨Rjk, hRjk, hRjkr⟩ := pointMultiply_bridge hg hA (j + k)
    obtain ⟨Rj, hRj, hRjr⟩ := pointMultiply_bridge hg hA j
    obtain ⟨Rk, hRk, hRkr⟩ := pointMultiply_bridge hg hA k
    obtain ⟨Rs, hRs, hRsr⟩ := pointAdd_bridge hg hRjr hRkr
    rw [hRjk, hRj, exceptBind_ok, hRk, exceptBind_ok, hRs]
    rw [← add_nsmul] at hRsr
    rw [reprPt_unique hp hRjkr hRsr]
  · obtain ⟨R0, hR0, hR0r⟩ := pointMultiply_bridge hg hA 0
    rw [hR0]
    rw [zero_nsmul] at hR0r
    rw [reprPt_zero_inf hp hR0r]

/-- C3 counterexample: on the valid curve `CURVE5` (`y² = x³ + x + 1`
over the prime `5`), the on-curve point `P = (3, 1)` has `2P = (0, 1)`,
whose zero x-coordinate trips the truthiness guard: `pointMultiply 4 P`
collapses to the point at infinity while
`pointAdd (pointMultiply 1 P) (pointMultiply 3 P)` returns `(3, 1)`. -/
theorem pointMultiply_hom_fails :
    pointMultiply (1 + 3) (affPt 3 1) CURVE5 = .ok infPt ∧
    (pointMultiply 1 (affPt 3 1) CURVE5 >>= fun Aj =>
      pointMultiply 3 (affPt 3 1) CURVE5 >>= fun Ak => pointAdd Aj Ak CURVE5) =
        .ok (affPt 3 1) ∧
    (Except.ok infPt : Except ECCError Point) ≠ .ok (affPt 3 1) ∧
    AffPt CURVE5 3 1 := by decide

/-- Witness for `pointMultiply_additive` on the toy curve at `P = G`,
`j = 2`, `k = 3`. -/
theorem pointMultiply_additive_witness :
    pointMultiply (2 + 3) (affPt 2 4) TOY_CURVE =
      (pointMultiply 2 (affPt 2 4) TOY_CURVE >>= fun Aj =>
        pointMultiply 3 (affPt 2 4) TOY_CURVE >>= fun Ak => pointAdd Aj Ak TOY_CURVE) ∧
    pointMultiply 0 (affPt 2 4) TOY_CURVE = .ok infPt :=
  pointMultiply_additive TOY_CURVE ⟨by decide, by decide, by decide, by decide⟩
    (affPt 2 4) (Or.inr ⟨2, 4, rfl, by decide⟩) 2 3

/-- C1 (amended): on a curve with odd prime modulus, nonzero
discriminant and no affine curve point with a zero coordinate, for
every valid base point `G`, canonical on-curve message point `Pm`,
private key `d` with `Q` the public key returned by
`pointMultiply d G`, and ephemeral scalar `k` such that the shared
secret `(d*k)·G` is not the point at infinity, the ElGamal pipeline of
`handleEncrypt`/`handleDecrypt` recovers exactly `Pm`. -/
theorem elgamal_roundtrip (c : CurveParams) (hg : GoodCurve c)
    (hG : ValidPoint c c.G) (x y : Int) (hPm : AffPt c x y)
    (d k : Nat) (Q : Point)
    (hQ : pointMultiply d c.G c = .ok Q)
    (hS : pointMultiply (d * k) c.G c ≠ .ok infPt) :
    ∃ C1 C2, elgamalEncrypt (affPt x y) Q k c = .ok (C1, C2) ∧
      elgamalDecrypt C1 C2 d c = .ok (affPt x y) := by
  haveI : Fact (Nat.Prime c.p.toNat) := ⟨hg.hprime⟩
  have hp : (0:Int) < c.p := by have := hg.hp2; omega
  have hrepr : ∃ AG, ReprPt c c.p.toNat c.G AG := by
    rcases hG with h | ⟨gx, gy, hGeq, hxy⟩
    · exact ⟨0, h ▸ ReprPt.inf⟩
    · exact ⟨.some (nonsingular_of_affpt hg hxy),
        hGeq ▸ ReprPt.aff gx gy hxy.1 hxy.2.1 hxy.2.2.1 hxy.2.2.2.1
          (nonsingular_of_affpt hg hxy)⟩
  obtain ⟨AG, hAG⟩ := hrepr
  obtain ⟨T, hT, hTr⟩ := pointMultiply_bridge hg hAG (d * k)
  have hSnz : (d * k) • AG ≠ 0 := by
    intro h0
    rw [h0] at hTr
    rw [reprPt_zero_inf hp hTr] at hT
    exact hS hT
  have hPmns := nonsingular_of_affpt hg hPm
  have hPmr : ReprPt c c.p.toNat (affPt x y) (.some hPmns) :=
    ReprPt.aff x y hPm.1 hPm.2.1 hPm.2.2.1 hPm.2.2.2.1 hPmns
  obtain ⟨Q', hQ'eq, hQ'r⟩ := pointMultiply_bridge hg hAG d
  have hQQ : Q' = Q := Except.ok.inj (hQ'eq.symm.trans hQ)
  subst hQQ
  obtain ⟨C1p, hC1, hC1r⟩ := pointMultiply_bridge hg hAG k
  obtain ⟨Sp, hSp, hSpr⟩ := pointMultiply_bridge hg hQ'r k
  obtain ⟨C2p, hC2, hC2r⟩ := pointAdd_bridge hg hPmr hSpr
  refine ⟨C1p, C2p, ?_, ?_⟩
  · unfold elgamalEncrypt
    rw [hC1, exceptBind_ok, hSp, exceptBind_ok, hC2, exceptBind_ok]
  · unfold elgamalDecrypt
    obtain ⟨S2, hS2, hS2r⟩ := pointMultiply_bridge hg hC1r d
    rw [hS2, exceptBind_ok]
    have hS2nz : d • (k • AG) ≠ 0 := by
      rw [← mul_nsmul AG k d, Nat.mul_comm k d]
      exact hSnz
    rcases reprPt_inversion hS2r with ⟨hS2i, hS2z⟩ |
      ⟨sx, sy, hsn, hS2eq, hsx0, hsx1, hsy0, hsy1, hS2A⟩
    · exact absurd hS2z hS2nz
    · subst hS2eq
      show pointAdd C2p (affPt sx (mod (-sy) c.p)) c = .ok (affPt x y)
      have hnegr := negPoint_bridge hg hsn hsx0 hsx1
      obtain ⟨M, hM, hMr⟩ := pointAdd_bridge hg hC2r hnegr
      rw [hM]
      rw [← hS2A] at hMr
      have hfix : (WeierstrassCurve.Affine.Point.some hPmns + k • (d • AG))
          + -(d • (k • AG)) = WeierstrassCurve.Affine.Point.some hPmns := by
        rw [← mul_nsmul AG d k, ← mul_nsmul AG k d, Nat.mul_comm k d]
        exact add_neg_cancel_right _ _
      rw [hfix] at hMr
      rw [reprPt_unique hp hMr hPmr]

/-- C1 counterexample: on the valid prime curve `CURVE5`
(`y² = x³ + x + 1` over `5`, `G = (3,1)`) with `d = k = 1` and the
canonical on-curve message point `Pm = (0, 1)`, encryption succeeds
with ciphertext `((3,1), ∞)` — the shared secret `(3,1) + (0,1)`
collapses to infinity under the zero-coordinate truthiness guard — and
decryption succeeds but returns `(3, 4) ≠ (0, 1)`: the round-trip does
not recover `Pm`. -/
theorem elgamal_roundtrip_fails :
    Nat.Prime CURVE5.p.toNat ∧
    AffPt CURVE5 0 1 ∧
    pointMultiply 1 CURVE5.G CURVE5 = .ok (affPt 3 1) ∧
    elgamalEncrypt (affPt 0 1) (affPt 3 1) 1 CURVE5 = .ok (affPt 3 1, infPt) ∧
    elgamalDecrypt (affPt 3 1) infPt 1 CURVE5 = .ok (affPt 3 4) ∧
    affPt 3 4 ≠ affPt 0 1 := by decide

/-- Witness for `elgamal_roundtrip` on the toy curve with `d = 2`,
`k = 3`, `Pm = (8, 3)`. -/
theorem elgamal_roundtrip_witness :
    ∃ C1 C2, elgamalEncrypt (affPt 8 3) (affPt 5 9) 3 TOY_CURVE = .ok (C1, C2) ∧
      elgamalDecrypt C1 C2 2 TOY_CURVE = .ok (affPt 8 3) :=
  elgamal_roundtrip TOY_CURVE ⟨by decide, by decide, by decide, by decide⟩
    (Or.inr ⟨2, 4, rfl, by decide⟩) 8 3 (by decide) 2 3 (affPt 5 9)
    (by decide) (by decide)
